import Mathlib

/-
  Verification of the BLISS range/partitioner core.

  The definitions below are a shallow embedding of
    src/partition/range.hpp        (struct range<T>)
    src/io/fastq_loader.hpp        (Partitioner base, BlockPartitioner,
                                    CyclicPartitioner, DemandDrivenPartitioner)
  over the integral value domain, modelled as Int (signed, overflow-free: the
  C++ code is written to avoid overflow by comparing before subtracting, and
  all reachable states keep start <= end so signed and unsigned evaluations
  agree).  size_t quantities (partition ids, chunk sizes, chunk counts,
  strides) are modelled as Nat and cast where the C++ casts.
-/

namespace Bliss

/-- Embedding of bliss::partition::range<T> (range.hpp).  `end` is a keyword in
Lean, so the field is `end_`; the C++ member `overlap` (called `ghost` at its
use sites inside the partitioners) is the field `overlap`. -/
structure Range where
  block_start : Int
  start : Int
  end_ : Int
  overlap : Int
deriving DecidableEq, Repr

/-- The range(start, end, overlap) constructor: block_start is initialised to
start.  The C++ constructor asserts start <= end and overlap >= 0; those
preconditions appear as hypotheses of the theorems that need them. -/
def Range.mk3 (s e ov : Int) : Range :=
  { block_start := s, start := s, end_ := e, overlap := ov }

/-- operator== of range.hpp: compares start and end only (not overlap, not
block_start). -/
def Range.req (a b : Range) : Prop :=
  a.start = b.start ∧ a.end_ = b.end_

instance (a b : Range) : Decidable (a.req b) := by
  unfold Range.req; infer_instance

/-- operator|= of range.hpp: block_start = start = min of starts, end = max of
ends, overlap = max of overlaps. -/
def Range.runion (a b : Range) : Range :=
  { block_start := min a.start b.start
    start := min a.start b.start
    end_ := max a.end_ b.end_
    overlap := max a.overlap b.overlap }

/-- operator&= of range.hpp: start = max of starts, end = min of ends,
overlap = max of overlaps; then block_start = start = min(start, end) to cope
with non-intersecting operands. -/
def Range.rinter (a b : Range) : Range :=
  let s := max a.start b.start
  let e := min a.end_ b.end_
  { block_start := min s e
    start := min s e
    end_ := e
    overlap := max a.overlap b.overlap }

/-- operator-= of range.hpp (complement; order matters):
block_start = start = min(start, other.start); end = min(end, other.start);
overlap is left unchanged. -/
def Range.rsub (a b : Range) : Range :=
  { a with
    block_start := min a.start b.start
    start := min a.start b.start
    end_ := min a.end_ b.start }

/-- size() of range.hpp, as the mathematical value end - start. -/
def Range.size (r : Range) : Int :=
  r.end_ - r.start

/-- size() of range.hpp converted to size_t, as used by the partitioners
(well defined because all partitioner sources keep start <= end). -/
def Range.sizeN (r : Range) : Nat :=
  (r.end_ - r.start).toNat

/-- align_to_page of range.hpp.  C++ `/` on integers truncates toward zero,
which is Int.tdiv.  `lowest` stands for std::numeric_limits<T>::lowest(); the
two assert() calls (page_size > 0 and the underflow guard
block_start - lowest > page_size) are modelled as `none`. -/
def Range.alignToPage (r : Range) (page_size : Nat) (lowest : Int) : Option Range :=
  if page_size = 0 then none
  else
    let bs := (Int.tdiv r.start (page_size : Int)) * (page_size : Int)
    if bs > r.start then
      if bs - lowest > (page_size : Int) then
        some { r with block_start := bs - (page_size : Int) }
      else
        none
    else
      some { r with block_start := bs }

/-! ## Partitioner base (fastq_loader.hpp, class Partitioner) -/

/-- State written by Partitioner::configure: normalised source (overlap forced
to 0), the sentinel `end` range (start == end == src.end), partition count,
chunk size and ghost size.  ChunkSizeType is size_t for integral domains, but
configure validates `_chunkSize < 0`, so the raw configured value is kept as
an Int here; the subclasses convert it to Nat. -/
structure PartCfg where
  src : Range
  end_ : Range
  nPartitions : Nat
  chunkSize : Int
  ghostSize : Int
deriving DecidableEq, Repr

/-- Partitioner::configure: rejects nPartitions == 0, ghostSize < 0 and
chunkSize < 0 (in that order), stores src with overlap := 0 and derives the
sentinel end range. -/
def configureBase (src : Range) (nPartitions : Nat) (chunkSize ghostSize : Int) :
    Except String PartCfg :=
  if nPartitions = 0 then
    .error "ERROR: partitioner c'tor: nPartitions is 0"
  else if ghostSize < 0 then
    .error "ERROR: partitioner c'tor: ghostSize is < 0"
  else if chunkSize < 0 then
    .error "ERROR: partitioner c'tor: chunkSize is < 0"
  else
    let src2 : Range := { src with overlap := 0 }
    .ok { src := src2
          end_ := { src2 with start := src2.end_ }
          nPartitions := nPartitions
          chunkSize := chunkSize
          ghostSize := ghostSize }

/-- Partitioner::computeNumberOfChunks, integral overload:
floor((chunkSize - 1 + src.size()) / chunkSize) in size_t arithmetic. -/
def computeNumberOfChunksInt (chunkSize size : Nat) : Nat :=
  (chunkSize - 1 + size) / chunkSize

/-- Partitioner::computeNumberOfChunks, floating overload:
src.size() / chunkSize evaluated in the floating domain (modelled exactly by
rationals) and converted to the size_t return type, which truncates. -/
def computeNumberOfChunksFloat (size chunkSize : ℚ) : Int :=
  Rat.floor (size / chunkSize)

/-- Partitioner::computeRangeForChunkId: start advances by chunkId * chunk_size,
then three branches ordered by distance of the new start to the parent's end:
full chunk + ghost, end within the chunk (ghost 0), end within the ghost
region (ghost = what remains past the chunk). -/
def computeRangeForChunkId (r pr : Range) (chunkId chunk_size : Nat)
    (ghost_size : Int) : Range :=
  let s := r.start + (chunkId : Int) * (chunk_size : Int)
  if pr.end_ - s > (chunk_size : Int) + ghost_size then
    { r with start := s, end_ := s + (chunk_size : Int) + ghost_size, overlap := ghost_size }
  else if pr.end_ - s ≤ (chunk_size : Int) then
    { r with start := s, end_ := pr.end_, overlap := 0 }
  else
    { r with start := s, end_ := pr.end_, overlap := pr.end_ - s - (chunk_size : Int) }

/-! ## BlockPartitioner (fastq_loader.hpp) -/

/-- BlockPartitioner state: the base configuration plus the recomputed
chunkSize (src.size() / nPartitions, in size_t), the remainder rem
(src.size() - chunkSize * nPartitions, stored in RangeValueType), the cached
current range and the one-shot done flag. -/
structure BlockState where
  src : Range
  end_ : Range
  nPartitions : Nat
  ghostSize : Int
  chunkSize : Nat
  rem : Int
  curr : Range
  done : Bool
deriving DecidableEq, Repr

/-- BlockPartitioner::resetImpl: curr := src, done := false. -/
def blockReset (st : BlockState) : BlockState :=
  { st with curr := st.src, done := false }

/-- BlockPartitioner::configure: base configure, then chunkSize :=
src.size() / nPartitions, rem := src.size() - chunkSize * nPartitions, then
resetImpl. -/
def blockConfigure (src : Range) (nPartitions : Nat) (chunkSize ghostSize : Int) :
    Except String BlockState :=
  (configureBase src nPartitions chunkSize ghostSize).map fun cfg =>
    let cs : Nat := cfg.src.sizeN / cfg.nPartitions
    blockReset
      { src := cfg.src
        end_ := cfg.end_
        nPartitions := cfg.nPartitions
        ghostSize := cfg.ghostSize
        chunkSize := cs
        rem := (cfg.src.sizeN : Int) - (cs : Int) * (cfg.nPartitions : Int)
        curr := cfg.src
        done := false }

/-- BlockPartitioner::getNextImpl (integral overload).  Note the source order:
the done test comes first, then the nPartitions == 1 shortcut (which returns
src WITHOUT setting done), then the remainder-spreading and
computeRangeForChunkId, then done := true. -/
def blockGetNextImpl (st : BlockState) (partId : Nat) : Range × BlockState :=
  if st.done then (st.end_, st)
  else if st.nPartitions = 1 then (st.src, st)
  else
    let cs : Nat := if (partId : Int) < st.rem then st.chunkSize + 1 else st.chunkSize
    let c0 : Range :=
      if (partId : Int) < st.rem then { st.curr with start := st.src.start }
      else { st.curr with start := st.src.start + st.rem }
    let c := computeRangeForChunkId c0 st.src partId cs st.ghostSize
    (c, { st with curr := c, done := true })

/-- Partitioner::getNext specialised to BlockPartitioner: rejects
partId >= nPartitions, otherwise dispatches to getNextImpl. -/
def blockGetNext (st : BlockState) (partId : Nat) :
    Except String (Range × BlockState) :=
  if partId ≥ st.nPartitions then
    .error "ERROR: partitioner.getNext called with partition id larger than number of partitions."
  else
    .ok (blockGetNextImpl st partId)

/-! ## CyclicPartitioner (fastq_loader.hpp)

The per-slot 3-state marker: BEFORE = 0, DURING = 1, AFTER = 2. -/

/-- CyclicPartitioner state.  `state` and `curr` are the per-slot arrays
(allocated with min(nChunks, nPartitions) entries; modelled as total
functions, with entries outside the allocated prefix never read by the
source paths embedded here). -/
structure CycState where
  src : Range
  end_ : Range
  nPartitions : Nat
  chunkSize : Nat
  ghostSize : Int
  nChunks : Nat
  stride : Nat
  state : Nat → Nat
  curr : Nat → Range

/-- CyclicPartitioner::resetImpl, keeping only the statements that take
effect: the loop body's broken first if/else (which contains an incomplete
ternary expression) is overwritten by the two unconditional assignments that
follow it in the source, so each slot i < min(nChunks, nPartitions) gets
state BEFORE, start = src.start + i * chunkSize,
end = (i == nChunks - 1 ? src.end : start + chunkSize + src.ghost) and
ghost = src.ghost. -/
def cycReset (st : CycState) : CycState :=
  let s := min st.nChunks st.nPartitions
  { st with
    state := fun i => if i < s then 0 else st.state i
    curr := fun i =>
      if i < s then
        let cstart := st.src.start + (i : Int) * (st.chunkSize : Int)
        { st.curr i with
          start := cstart
          end_ := if i = st.nChunks - 1 then st.src.end_
                  else cstart + (st.chunkSize : Int) + st.src.overlap
          overlap := st.src.overlap }
      else st.curr i }

/-- CyclicPartitioner::configure: base configure (the source's call site
passes no ghost argument; the base signature requires one, threaded through
here), then nChunks := computeNumberOfChunks(), stride := chunkSize *
nPartitions when nChunks > nPartitions and src.size() otherwise, freshly
default-constructed slot arrays, then resetImpl. -/
def cycConfigure (src : Range) (nPartitions : Nat) (chunkSize ghostSize : Int) :
    Except String CycState :=
  (configureBase src nPartitions chunkSize ghostSize).map fun cfg =>
    let cs : Nat := cfg.chunkSize.toNat
    let nChunks := computeNumberOfChunksInt cs cfg.src.sizeN
    cycReset
      { src := cfg.src
        end_ := cfg.end_
        nPartitions := cfg.nPartitions
        chunkSize := cs
        ghostSize := cfg.ghostSize
        nChunks := nChunks
        stride := if nChunks > cfg.nPartitions then cs * cfg.nPartitions
                  else cfg.src.sizeN
        state := fun _ => 0
        curr := fun _ => { block_start := 0, start := 0, end_ := 0, overlap := 0 } }

/-- CyclicPartitioner::getNextImpl: partId >= nChunks or a slot in AFTER
returns the sentinel; BEFORE returns the precomputed first chunk and moves to
DURING; DURING advances start (or goes AFTER returning the sentinel), then
advances end (or clamps end to src.end, sets the final ghost and goes AFTER).
The final ghost assignment is the source's incomplete
`curr[partId].ghost = std::min(this->` expression.
Modelled from the spec: the missing operands of that clamp are the configured
ghost and what still fits before src.end after this chunk's chunkSize
payload, the result clamped below at 0 so a ghost length is never negative. -/
def cycGetNextImpl (st : CycState) (partId : Nat) : Range × CycState :=
  if partId ≥ st.nChunks then (st.end_, st)
  else if st.state partId = 2 then (st.end_, st)
  else if st.state partId = 0 then
    (st.curr partId, { st with state := Function.update st.state partId 1 })
  else
    if st.src.end_ - (st.curr partId).start > (st.stride : Int) then
      let c1 := { st.curr partId with start := (st.curr partId).start + (st.stride : Int) }
      if st.src.end_ - c1.end_ > (st.stride : Int) then
        let c2 := { c1 with end_ := c1.end_ + (st.stride : Int) }
        (c2, { st with curr := Function.update st.curr partId c2 })
      else
        let g := max 0 (min st.ghostSize
          (st.src.end_ - (c1.start + (st.chunkSize : Int))))
        let c2 := { c1 with overlap := g, end_ := st.src.end_ }
        (c2, { st with
          curr := Function.update st.curr partId c2
          state := Function.update st.state partId 2 })
    else
      (st.end_, { st with state := Function.update st.state partId 2 })

/-- Partitioner::getNext specialised to CyclicPartitioner. -/
def cycGetNext (st : CycState) (partId : Nat) :
    Except String (Range × CycState) :=
  if partId ≥ st.nPartitions then
    .error "ERROR: partitioner.getNext called with partition id larger than number of partitions."
  else
    .ok (cycGetNextImpl st partId)

/-! ## DemandDrivenPartitioner (fastq_loader.hpp)

The shared atomics (chunkOffset, chunkId, done) are modelled as plain state
fields; a traversal is any interleaving of calls, modelled as a sequence of
partition ids (the C++ guarantees each call's read-modify-write is atomic, so
every concurrent execution is equivalent to some such sequence). -/

/-- DemandDrivenPartitioner state. -/
structure DDState where
  src : Range
  end_ : Range
  nPartitions : Nat
  chunkSize : Nat
  ghostSize : Int
  nChunks : Nat
  chunkOffset : Int
  chunkId : Nat
  done : Bool
  curr : Nat → Range

/-- DemandDrivenPartitioner::resetImpl: chunkOffset := src.start,
chunkId := 0, done := false, and each slot i < min(nPartitions, nChunks) is
reassigned Range(src.start, src.start, src.ghost). -/
def ddReset (st : DDState) : DDState :=
  { st with
    chunkOffset := st.src.start
    chunkId := 0
    done := false
    curr := fun i =>
      if i < min st.nPartitions st.nChunks then
        Range.mk3 st.src.start st.src.start st.src.overlap
      else st.curr i }

/-- DemandDrivenPartitioner::configure: base configure (the source's call
site passes no ghost argument; threaded through as for Cyclic), nChunks :=
computeNumberOfChunks(), a freshly default-constructed slot array, then
resetImpl. -/
def ddConfigure (src : Range) (nPartitions : Nat) (chunkSize ghostSize : Int) :
    Except String DDState :=
  (configureBase src nPartitions chunkSize ghostSize).map fun cfg =>
    let cs : Nat := cfg.chunkSize.toNat
    ddReset
      { src := cfg.src
        end_ := cfg.end_
        nPartitions := cfg.nPartitions
        chunkSize := cs
        ghostSize := cfg.ghostSize
        nChunks := computeNumberOfChunksInt cs cfg.src.sizeN
        chunkOffset := 0
        chunkId := 0
        done := false
        curr := fun _ => { block_start := 0, start := 0, end_ := 0, overlap := 0 } }

/-- DemandDrivenPartitioner::getNextImpl (integral getNextOffset, i.e. an
atomic fetch_add): if done, return the sentinel; otherwise reserve offset s
(advancing chunkOffset by chunkSize) and a chunk id (advancing chunkId by 1);
the slot index is the chunk id when nChunks < nPartitions and partId
otherwise; s >= src.end sets done and returns the sentinel; otherwise the
slot receives start = s and end = s + chunkSize + src.ghost capped at
src.end (computed by comparison to avoid overflow), and is returned. -/
def ddGetNextImpl (st : DDState) (partId : Nat) : Range × DDState :=
  if st.done then (st.end_, st)
  else
    let s := st.chunkOffset
    let cid := st.chunkId
    let stB := { st with chunkOffset := s + (st.chunkSize : Int), chunkId := cid + 1 }
    let id := if st.nChunks < st.nPartitions then cid else partId
    if s ≥ st.src.end_ then
      (stB.end_, { stB with done := true })
    else
      let e := if st.src.end_ - s > (st.chunkSize : Int) + st.src.overlap then
                 s + (st.chunkSize : Int) + st.src.overlap
               else st.src.end_
      let c := { stB.curr id with start := s, end_ := e }
      (c, { stB with curr := Function.update stB.curr id c })

/-- Partitioner::getNext specialised to DemandDrivenPartitioner. -/
def ddGetNext (st : DDState) (partId : Nat) :
    Except String (Range × DDState) :=
  if partId ≥ st.nPartitions then
    .error "ERROR: partitioner.getNext called with partition id larger than number of partitions."
  else
    .ok (ddGetNextImpl st partId)

/-! ## Traversal helpers and concrete configurations used by the theorems -/

/-- Membership of an index in a returned chunk: a sentinel (start == end)
range contains nothing. -/
def inRange (r : Range) (x : Int) : Prop :=
  r.start ≤ x ∧ x < r.end_

instance (r : Range) (x : Int) : Decidable (inRange r x) := by
  unfold inRange; infer_instance

/-- The non-ghost core of a returned chunk: the chunk with its trailing ghost
region (its last `overlap` indices) removed. -/
def coreOf (r : Range) : Range :=
  { r with end_ := r.end_ - r.overlap }

/-- State of a CyclicPartitioner after k getNext calls for partition p. -/
def cycStateAfter (st : CycState) (p : Nat) : Nat → CycState
  | 0 => st
  | k + 1 => (cycGetNextImpl (cycStateAfter st p k) p).2

/-- Result of the (k+1)-th getNext call for partition p (k prior calls). -/
def cycResultAt (st : CycState) (p : Nat) (k : Nat) : Range :=
  (cycGetNextImpl (cycStateAfter st p k) p).1

/-- State of a DemandDrivenPartitioner after t getNext calls, the i-th call
made with partition id pseq i (an arbitrary interleaving of callers). -/
def ddStateAfter (st : DDState) (pseq : Nat → Nat) : Nat → DDState
  | 0 => st
  | t + 1 => (ddGetNextImpl (ddStateAfter st pseq t) (pseq t)).2

/-- Result of call number t (0-based) in a demand-driven traversal. -/
def ddResultAt (st : DDState) (pseq : Nat → Nat) (t : Nat) : Range :=
  (ddGetNextImpl (ddStateAfter st pseq t) (pseq t)).1

/-- Model of std::numeric_limits<int64_t>::lowest(). -/
def int64Lowest : Int := -(2 ^ 63)

/-- The source range [0, 100) used by the concrete examples of the spec. -/
def srcW : Range := Range.mk3 0 100 0

/-- Fallback values used only to name the result of a successful configure. -/
def blockDflt : BlockState :=
  { src := srcW, end_ := srcW, nPartitions := 1, ghostSize := 0, chunkSize := 0,
    rem := 0, curr := srcW, done := false }

/-- Fallback CycState (never reached on the concrete inputs below). -/
def cycDflt : CycState :=
  { src := srcW, end_ := srcW, nPartitions := 1, chunkSize := 1, ghostSize := 0,
    nChunks := 0, stride := 0, state := fun _ => 0,
    curr := fun _ => { block_start := 0, start := 0, end_ := 0, overlap := 0 } }

/-- Fallback DDState (never reached on the concrete inputs below). -/
def ddDflt : DDState :=
  { src := srcW, end_ := srcW, nPartitions := 1, chunkSize := 1, ghostSize := 0,
    nChunks := 0, chunkOffset := 0, chunkId := 0, done := false,
    curr := fun _ => { block_start := 0, start := 0, end_ := 0, overlap := 0 } }

/-- Offset (from src.start) of partition p's chunk in a BlockPartitioner
split of a size-S source over N partitions: the first S mod N partitions get
S div N + 1 elements, the rest S div N. -/
def blockOffN (S N p : Nat) : Nat :=
  if p < S % N then p * (S / N + 1) else S % N + p * (S / N)

/-- BlockPartitioner over [0,100) with 3 partitions (spec example). -/
def stBW : BlockState := (blockConfigure srcW 3 0 0).toOption.getD blockDflt

/-- BlockPartitioner over [0,100) with 1 partition (for the one-shot claim). -/
def stB1 : BlockState := (blockConfigure srcW 1 0 0).toOption.getD blockDflt

/-- CyclicPartitioner over [0,100), chunkSize 10, 3 partitions (spec example). -/
def stCW : CycState := (cycConfigure srcW 3 10 0).toOption.getD cycDflt

/-- DemandDrivenPartitioner over [0,100), chunkSize 10, 2 partitions. -/
def stDW : DDState := (ddConfigure srcW 2 10 0).toOption.getD ddDflt

end Bliss

namespace Bliss

/-! ## Claim C9: range difference -/

/-- C9: the difference A - B truncates A at B.start with exactly three
outcomes: B.start <= A.start gives the empty range [B.start, B.start);
A.start < B.start < A.end gives [A.start, B.start); B.start >= A.end keeps
A's bounds.  [0,10) - [5,15) = [0,5), and the operation is order-sensitive:
for that same pair A - B and B - A differ. -/
theorem range_difference_truncates (A B : Range) (hA : A.start ≤ A.end_) :
    ((B.start ≤ A.start →
        (A.rsub B).start = B.start ∧ (A.rsub B).end_ = B.start) ∧
     (A.start < B.start → B.start < A.end_ →
        (A.rsub B).start = A.start ∧ (A.rsub B).end_ = B.start) ∧
     (A.end_ ≤ B.start →
        (A.rsub B).start = A.start ∧ (A.rsub B).end_ = A.end_)) ∧
    Range.req ((Range.mk3 0 10 2).rsub (Range.mk3 5 15 1)) (Range.mk3 0 5 0) ∧
    ¬ Range.req ((Range.mk3 0 10 2).rsub (Range.mk3 5 15 1))
        ((Range.mk3 5 15 1).rsub (Range.mk3 0 10 2)) := by
  refine ⟨⟨?_, ?_, ?_⟩, by decide, by decide⟩
  · intro h
    constructor
    · simp only [Range.rsub]
      omega
    · simp only [Range.rsub]
      omega
  · intro h1 h2
    constructor
    · simp only [Range.rsub]
      omega
    · simp only [Range.rsub]
      omega
  · intro h
    constructor
    · simp only [Range.rsub]
      omega
    · simp only [Range.rsub]
      omega

/-- Witness for C9 at A = [0,10) ov 2, B = [5,15) ov 1. -/
theorem range_difference_truncates_witness :
    ((Range.mk3 0 10 2).rsub (Range.mk3 5 15 1)).start = (Range.mk3 0 10 2).start ∧
    ((Range.mk3 0 10 2).rsub (Range.mk3 5 15 1)).end_ = (Range.mk3 5 15 1).start :=
  (range_difference_truncates (Range.mk3 0 10 2) (Range.mk3 5 15 1)
    (by decide)).1.2.1 (by decide) (by decide)

/-! ## Claim C10: union and intersection commute under range equality -/

/-- C10: union and intersection are commutative with respect to operator==,
which compares only start and end (so two ranges with the same bounds but
different overlap or block_start compare equal). -/
theorem range_union_inter_comm (A B : Range) :
    Range.req (A.runion B) (B.runion A) ∧
    Range.req (A.rinter B) (B.rinter A) ∧
    (Range.req A B ↔ A.start = B.start ∧ A.end_ = B.end_) ∧
    Range.req { block_start := 0, start := 1, end_ := 2, overlap := 3 }
      { block_start := 9, start := 1, end_ := 2, overlap := 7 } := by
  refine ⟨?_, ?_, Iff.rfl, by decide⟩
  · exact ⟨min_comm _ _, max_comm _ _⟩
  · constructor
    · simp only [Range.rinter]
      rw [max_comm A.start B.start, min_comm A.end_ B.end_]
    · simp only [Range.rinter]
      rw [min_comm A.end_ B.end_]

/-! ## Claim C7: configure and getNext error conditions -/

/-- C7: configure throws exactly when nPartitions == 0, ghostSize < 0 or
chunkSize < 0, and on success stores src with its overlap forced to 0 and a
sentinel end range with start == end == src.end; getNext (for each of the
three strategies) throws exactly when partId >= nPartitions, and every
in-range partId is served by the strategy implementation, so exhaustion can
only be signalled through the returned range, never an error. -/
theorem configure_and_getNext_error_conditions :
    (∀ (src : Range) (N : Nat) (cs g : Int),
      ((∃ e, configureBase src N cs g = .error e) ↔ (N = 0 ∨ g < 0 ∨ cs < 0)) ∧
      (∀ cfg, configureBase src N cs g = .ok cfg →
        cfg.src = { src with overlap := 0 } ∧
        cfg.end_.start = cfg.end_.end_ ∧ cfg.end_.end_ = src.end_)) ∧
    (∀ (st : BlockState) (p : Nat),
      ((∃ e, blockGetNext st p = .error e) ↔ st.nPartitions ≤ p) ∧
      (p < st.nPartitions → blockGetNext st p = .ok (blockGetNextImpl st p))) ∧
    (∀ (st : CycState) (p : Nat),
      ((∃ e, cycGetNext st p = .error e) ↔ st.nPartitions ≤ p) ∧
      (p < st.nPartitions → cycGetNext st p = .ok (cycGetNextImpl st p))) ∧
    (∀ (st : DDState) (p : Nat),
      ((∃ e, ddGetNext st p = .error e) ↔ st.nPartitions ≤ p) ∧
      (p < st.nPartitions → ddGetNext st p = .ok (ddGetNextImpl st p))) := by
  refine ⟨?_, ?_, ?_, ?_⟩
  · intro src N cs g
    constructor
    · unfold configureBase
      split_ifs with h1 h2 h3
      · exact ⟨fun _ => Or.inl h1, fun _ => ⟨_, rfl⟩⟩
      · exact ⟨fun _ => Or.inr (Or.inl h2), fun _ => ⟨_, rfl⟩⟩
      · exact ⟨fun _ => Or.inr (Or.inr h3), fun _ => ⟨_, rfl⟩⟩
      · constructor
        · rintro ⟨e, he⟩
          exact absurd he (by simp)
        · rintro (h | h | h) <;> [exact absurd h h1; exact absurd h h2; exact absurd h h3]
    · intro cfg hcfg
      unfold configureBase at hcfg
      split_ifs at hcfg
      cases hcfg
      exact ⟨rfl, rfl, rfl⟩
  · intro st p
    constructor
    · unfold blockGetNext
      split_ifs with h1
      · exact ⟨fun _ => h1, fun _ => ⟨_, rfl⟩⟩
      · exact ⟨fun ⟨e, he⟩ => absurd he (by simp), fun h => absurd h h1⟩
    · intro h
      unfold blockGetNext
      rw [if_neg (by omega)]
  · intro st p
    constructor
    · unfold cycGetNext
      split_ifs with h1
      · exact ⟨fun _ => h1, fun _ => ⟨_, rfl⟩⟩
      · exact ⟨fun ⟨e, he⟩ => absurd he (by simp), fun h => absurd h h1⟩
    · intro h
      unfold cycGetNext
      rw [if_neg (by omega)]
  · intro st p
    constructor
    · unfold ddGetNext
      split_ifs with h1
      · exact ⟨fun _ => h1, fun _ => ⟨_, rfl⟩⟩
      · exact ⟨fun ⟨e, he⟩ => absurd he (by simp), fun h => absurd h h1⟩
    · intro h
      unfold ddGetNext
      rw [if_neg (by omega)]

/-- Witness for C7: the configured state for [0,100) x 3 partitions, and
getNext at an in-range and an out-of-range partition id. -/
theorem configure_and_getNext_error_conditions_witness :
    ((∃ e, configureBase srcW 0 0 0 = .error e) ↔
       ((0 : Nat) = 0 ∨ (0 : Int) < 0 ∨ (0 : Int) < 0)) ∧
    (∃ e, blockGetNext stBW 5 = .error e) ∧
    blockGetNext stBW 2 = .ok (blockGetNextImpl stBW 2) := by
  refine ⟨(configure_and_getNext_error_conditions.1 srcW 0 0 0).1, ?_, ?_⟩
  · exact ((configure_and_getNext_error_conditions.2.1 stBW 5).1).mpr (by decide)
  · exact (configure_and_getNext_error_conditions.2.1 stBW 2).2 (by decide)

/-! ## Claim C6: computeNumberOfChunks -/

/-- A chunk index j yields a non-empty slice of a size-S source exactly when
j is below the integral chunk count (C - 1 + S) / C. -/
theorem chunk_lt_iff {C S : Nat} (hC : 0 < C) (j : Nat) :
    j * C < S ↔ j < computeNumberOfChunksInt C S := by
  unfold computeNumberOfChunksInt
  have hx := Nat.div_add_mod (C - 1 + S) C
  have hxr : (C - 1 + S) % C < C := Nat.mod_lt _ hC
  set n := (C - 1 + S) / C with hn
  have h1 : S ≤ C * n := by omega
  have h2 : C * n < S + C := by omega
  constructor
  · intro hj
    have hjC : j * C < n * C := by
      rw [mul_comm n C]
      omega
    exact (Nat.mul_lt_mul_right hC).mp hjC
  · intro hj
    have hjq : j + 1 ≤ n := hj
    have h3 : (j + 1) * C ≤ n * C := Nat.mul_le_mul_right C hjq
    have h4 : (j + 1) * C = j * C + C := by ring
    have h5 : n * C = C * n := by ring
    omega

/-- C6: the integral computeNumberOfChunks is the ceiling division
(chunkSize - 1 + S) / chunkSize, the least n with n * chunkSize >= S, while
the floating computeNumberOfChunks is the truncating division S / chunkSize
(which drops any final partial chunk). -/
theorem computeNumberOfChunks_division_modes (C S : Nat) (hC : 0 < C) (hS : 0 < S) :
    (computeNumberOfChunksInt C S = (C - 1 + S) / C ∧
     S ≤ computeNumberOfChunksInt C S * C ∧
     (∀ n : Nat, S ≤ n * C → computeNumberOfChunksInt C S ≤ n)) ∧
    computeNumberOfChunksFloat (S : ℚ) (C : ℚ) = ((S / C : Nat) : Int) := by
  constructor
  · refine ⟨rfl, ?_, ?_⟩
    · by_contra hlt
      push_neg at hlt
      have := (chunk_lt_iff hC (computeNumberOfChunksInt C S)).mp hlt
      omega
    · intro n hn
      by_contra hlt
      push_neg at hlt
      have := (chunk_lt_iff hC n).mpr hlt
      omega
  · show Int.floor ((S : ℚ) / (C : ℚ)) = ((S / C : Nat) : Int)
    have hCQ : (0 : ℚ) < (C : ℚ) := by exact_mod_cast hC
    rw [Int.floor_eq_iff]
    constructor
    · rw [le_div_iff₀ hCQ]
      have : (S / C) * C ≤ S := Nat.div_mul_le_self S C
      exact_mod_cast this
    · rw [div_lt_iff₀ hCQ]
      have hdm := Nat.div_add_mod S C
      have hrC : S % C < C := Nat.mod_lt _ hC
      have hcomm : C * (S / C) = S / C * C := by ring
      have hexp : (S / C + 1) * C = S / C * C + C := by ring
      have : S < (S / C + 1) * C := by omega
      push_cast
      exact_mod_cast this

/-- Witness for C6 at chunkSize 30 and size 100: the integral count is 4
(ceiling), the floating count is 3 (truncating). -/
theorem computeNumberOfChunks_division_modes_witness :
    (computeNumberOfChunksInt 30 100 = (30 - 1 + 100) / 30 ∧
     100 ≤ computeNumberOfChunksInt 30 100 * 30 ∧
     (∀ n : Nat, 100 ≤ n * 30 → computeNumberOfChunksInt 30 100 ≤ n)) ∧
    computeNumberOfChunksFloat (100 : ℚ) (30 : ℚ) = ((100 / 30 : Nat) : Int) :=
  computeNumberOfChunks_division_modes 30 100 (by decide) (by decide)

/-! ## Claim C2: BlockPartitioner one-shot behaviour (code bug at
nPartitions == 1) -/

/-- C2 failing input: for nPartitions == 1 the claim (and the function's own
doc comment) require every call after the first to return the sentinel, but
getNextImpl returns src before setting done, so the second call returns the
whole source [0,100) again (not the sentinel [100,100)) and done is still
false.  For contrast, with 3 partitions the second call does return the
sentinel. -/
theorem block_one_shot_bug_at_single_partition :
    (blockConfigure srcW 1 0 0).map (fun st =>
        let c1 := blockGetNextImpl st 0
        let c2 := blockGetNextImpl c1.2 0
        (c1.1.start, c1.1.end_, c2.1.start, c2.1.end_, c1.2.done))
      = .ok (0, 100, 0, 100, false) ∧
    (blockConfigure srcW 3 0 0).map (fun st =>
        let c1 := blockGetNextImpl st 0
        let c2 := blockGetNextImpl c1.2 2
        (c2.1.start, c2.1.end_, c1.2.done))
      = .ok (100, 100, true) := by
  exact ⟨rfl, rfl⟩

/-! ## Claim C8: align_to_page -/

/-- Truncating division bound for a nonnegative dividend: the truncated
multiple is the greatest multiple at or below a. -/
theorem tdiv_mul_bounds_nonneg {a p : Int} (ha : 0 ≤ a) (hp : 0 < p) :
    Int.tdiv a p * p ≤ a ∧ a < Int.tdiv a p * p + p := by
  rw [Int.tdiv_eq_ediv ha hp.le]
  have h1 := Int.ediv_add_emod a p
  have h2 := Int.emod_nonneg a hp.ne'
  have h3 := Int.emod_lt_of_pos a hp
  have h4 : a / p * p = p * (a / p) := by ring
  rw [h4]
  omega

/-- Truncating division bound for a negative dividend: the truncated multiple
is the least multiple at or above a. -/
theorem tdiv_mul_bounds_neg {a p : Int} (ha : a < 0) (hp : 0 < p) :
    a ≤ Int.tdiv a p * p ∧ Int.tdiv a p * p < a + p := by
  have hna : 0 ≤ -a := by omega
  obtain ⟨l1, l2⟩ := tdiv_mul_bounds_nonneg hna hp
  have h := Int.neg_tdiv a p
  rw [h] at l1 l2
  have hnm : -Int.tdiv a p * p = -(Int.tdiv a p * p) := by ring
  rw [hnm] at l1 l2
  omega

/-- C8: on every successful call with pageSize > 0, align_to_page sets
block_start to the greatest multiple of pageSize at or below start (rounding
toward negative infinity) and changes nothing else; and whenever the greatest
such multiple lies below T's minimum representable value, the call fails
(returns none) instead of clamping.  Concretely start=130, pageSize=128 gives
block_start=128 and start=-10, pageSize=128 gives block_start=-128. -/
theorem align_to_page_floor_multiple :
    (∀ (r : Range) (p : Nat) (lo : Int), 0 < p →
      (∀ r2, r.alignToPage p lo = some r2 →
        ((p : Int) ∣ r2.block_start ∧ r2.block_start ≤ r.start ∧
         r.start < r2.block_start + (p : Int)) ∧
        r2.start = r.start ∧ r2.end_ = r.end_ ∧ r2.overlap = r.overlap) ∧
      (lo ≤ 0 → lo ≤ r.start →
        (∀ m : Int, (p : Int) ∣ m → m ≤ r.start → r.start < m + (p : Int) → m < lo) →
        r.alignToPage p lo = none)) ∧
    (∃ r2, (Range.mk3 130 200 0).alignToPage 128 int64Lowest = some r2 ∧
       r2.block_start = 128) ∧
    (∃ r2, (Range.mk3 (-10) 50 0).alignToPage 128 int64Lowest = some r2 ∧
       r2.block_start = -128) := by
  refine ⟨?_, ⟨_, rfl, rfl⟩, ⟨_, rfl, rfl⟩⟩
  intro r p lo hp
  have hpI : (0 : Int) < (p : Int) := by exact_mod_cast hp
  have hpz : ¬ (p = 0) := by omega
  have hdvd : (p : Int) ∣ Int.tdiv r.start (p : Int) * (p : Int) :=
    dvd_mul_left _ _
  constructor
  · intro r2 h2
    unfold Range.alignToPage at h2
    rw [if_neg hpz] at h2
    simp only [] at h2
    by_cases hgt : Int.tdiv r.start (p : Int) * (p : Int) > r.start
    · rw [if_pos hgt] at h2
      have hneg : r.start < 0 := by
        by_contra hge
        push_neg at hge
        exact absurd hgt (not_lt.mpr (tdiv_mul_bounds_nonneg hge hpI).1)
      obtain ⟨l1, l2⟩ := tdiv_mul_bounds_neg hneg hpI
      by_cases hud : Int.tdiv r.start (p : Int) * (p : Int) - lo > (p : Int)
      · rw [if_pos hud] at h2
        have hbk : r2.block_start = Int.tdiv r.start (p : Int) * (p : Int) - (p : Int) := by
          cases h2
          rfl
        have hrest : r2.start = r.start ∧ r2.end_ = r.end_ ∧ r2.overlap = r.overlap := by
          cases h2
          exact ⟨rfl, rfl, rfl⟩
        refine ⟨⟨?_, ?_, ?_⟩, hrest.1, hrest.2.1, hrest.2.2⟩
        · rw [hbk]
          exact dvd_sub hdvd dvd_rfl
        · rw [hbk]
          omega
        · rw [hbk]
          omega
      · rw [if_neg hud] at h2
        cases h2
    · rw [if_neg hgt] at h2
      have hbk : r2.block_start = Int.tdiv r.start (p : Int) * (p : Int) := by
        cases h2
        rfl
      have hrest : r2.start = r.start ∧ r2.end_ = r.end_ ∧ r2.overlap = r.overlap := by
        cases h2
        exact ⟨rfl, rfl, rfl⟩
      have hle : Int.tdiv r.start (p : Int) * (p : Int) ≤ r.start := not_lt.mp hgt
      have hub : r.start < Int.tdiv r.start (p : Int) * (p : Int) + (p : Int) := by
        rcases lt_or_le r.start 0 with hneg | hge
        · obtain ⟨l1, l2⟩ := tdiv_mul_bounds_neg hneg hpI
          omega
        · exact (tdiv_mul_bounds_nonneg hge hpI).2
      refine ⟨⟨?_, ?_, ?_⟩, hrest.1, hrest.2.1, hrest.2.2⟩
      · rw [hbk]
        exact hdvd
      · rw [hbk]
        exact hle
      · rw [hbk]
        exact hub
  · intro hlo0 hloa H
    unfold Range.alignToPage
    rw [if_neg hpz]
    simp only []
    by_cases hgt : Int.tdiv r.start (p : Int) * (p : Int) > r.start
    · rw [if_pos hgt]
      have hneg : r.start < 0 := by
        by_contra hge
        push_neg at hge
        exact absurd hgt (not_lt.mpr (tdiv_mul_bounds_nonneg hge hpI).1)
      obtain ⟨l1, l2⟩ := tdiv_mul_bounds_neg hneg hpI
      have hm := H (Int.tdiv r.start (p : Int) * (p : Int) - (p : Int))
        (dvd_sub hdvd dvd_rfl) (by omega) (by omega)
      rw [if_neg (by omega)]
    · exfalso
      have hle : Int.tdiv r.start (p : Int) * (p : Int) ≤ r.start := not_lt.mp hgt
      have hub : r.start < Int.tdiv r.start (p : Int) * (p : Int) + (p : Int) := by
        rcases lt_or_le r.start 0 with hneg | hge
        · obtain ⟨l1, l2⟩ := tdiv_mul_bounds_neg hneg hpI
          omega
        · exact (tdiv_mul_bounds_nonneg hge hpI).2
      have hm := H _ hdvd hle hub
      rcases lt_or_le r.start 0 with hneg | hge
      · obtain ⟨l1, l2⟩ := tdiv_mul_bounds_neg hneg hpI
        omega
      · have : (0 : Int) ≤ Int.tdiv r.start (p : Int) * (p : Int) :=
          mul_nonneg (Int.tdiv_nonneg hge hpI.le) hpI.le
        omega

/-- Inversion of a successful BlockPartitioner::configure. -/
theorem blockConfigure_ok {src : Range} {N : Nat} {cs g : Int} {st : BlockState}
    (h : blockConfigure src N cs g = .ok st) :
    N ≠ 0 ∧ 0 ≤ g ∧ 0 ≤ cs ∧
    st.src = { src with overlap := 0 } ∧
    st.end_ = { src with overlap := 0, start := src.end_ } ∧
    st.nPartitions = N ∧ st.ghostSize = g ∧
    st.chunkSize = src.sizeN / N ∧
    st.rem = (src.sizeN : Int) - ((src.sizeN / N : Nat) : Int) * (N : Int) ∧
    st.curr = { src with overlap := 0 } ∧
    st.done = false := by
  unfold blockConfigure configureBase at h
  split_ifs at h with h1 h2 h3
  · simp only [Except.map] at h
    exact Except.noConfusion h
  · simp only [Except.map] at h
    exact Except.noConfusion h
  · simp only [Except.map] at h
    exact Except.noConfusion h
  · simp only [Except.map, Except.ok.injEq] at h
    subst h
    exact ⟨h1, by omega, by omega, rfl, rfl, rfl, rfl, rfl, rfl, rfl, rfl⟩

/-! ## Inversion and step lemmas used for the coverage invariant -/

/-- Inversion of a successful CyclicPartitioner::configure. -/
theorem cycConfigure_ok {src : Range} {N : Nat} {cs g : Int} {st : CycState}
    (h : cycConfigure src N cs g = .ok st) :
    N ≠ 0 ∧ 0 ≤ g ∧ 0 ≤ cs ∧
    st = cycReset
      { src := { src with overlap := 0 }
        end_ := { src with overlap := 0, start := src.end_ }
        nPartitions := N
        chunkSize := cs.toNat
        ghostSize := g
        nChunks := computeNumberOfChunksInt cs.toNat src.sizeN
        stride := if computeNumberOfChunksInt cs.toNat src.sizeN > N
                  then cs.toNat * N else src.sizeN
        state := fun _ => 0
        curr := fun _ => { block_start := 0, start := 0, end_ := 0, overlap := 0 } } := by
  unfold cycConfigure configureBase at h
  split_ifs at h with h1 h2 h3
  · simp only [Except.map] at h
    exact Except.noConfusion h
  · simp only [Except.map] at h
    exact Except.noConfusion h
  · simp only [Except.map] at h
    exact Except.noConfusion h
  · simp only [Except.map, Except.ok.injEq] at h
    exact ⟨h1, by omega, by omega, h.symm⟩

/-- Inversion of a successful DemandDrivenPartitioner::configure. -/
theorem ddConfigure_ok {src : Range} {N : Nat} {cs g : Int} {st : DDState}
    (h : ddConfigure src N cs g = .ok st) :
    N ≠ 0 ∧ 0 ≤ g ∧ 0 ≤ cs ∧
    st = ddReset
      { src := { src with overlap := 0 }
        end_ := { src with overlap := 0, start := src.end_ }
        nPartitions := N
        chunkSize := cs.toNat
        ghostSize := g
        nChunks := computeNumberOfChunksInt cs.toNat src.sizeN
        chunkOffset := 0
        chunkId := 0
        done := false
        curr := fun _ => { block_start := 0, start := 0, end_ := 0, overlap := 0 } } := by
  unfold ddConfigure configureBase at h
  split_ifs at h with h1 h2 h3
  · simp only [Except.map] at h
    exact Except.noConfusion h
  · simp only [Except.map] at h
    exact Except.noConfusion h
  · simp only [Except.map] at h
    exact Except.noConfusion h
  · simp only [Except.map, Except.ok.injEq] at h
    exact ⟨h1, by omega, by omega, h.symm⟩

/-- Existence half of the chunk tiling: every index of [s0, e0) lies in the
chunk with index (x - s0) div C. -/
theorem tile_mem_exists {s0 e0 : Int} {C : Nat} (hC : 0 < C) (x : Int)
    (hx1 : s0 ≤ x) (hx2 : x < e0) :
    ∃ j : Nat, ((j * C : Nat) : Int) < e0 - s0 ∧
      s0 + ((j * C : Nat) : Int) ≤ x ∧
      x < min (s0 + (((j + 1) * C : Nat) : Int)) e0 := by
  have hdI : ((x - s0).toNat : Int) = x - s0 := Int.toNat_of_nonneg (by omega)
  set d : Nat := (x - s0).toNat with hd
  refine ⟨d / C, ?_, ?_, ?_⟩
  · have h1 : d / C * C ≤ d := Nat.div_mul_le_self _ _
    have h1I : ((d / C * C : Nat) : Int) ≤ (d : Int) := by exact_mod_cast h1
    omega
  · have h1 : d / C * C ≤ d := Nat.div_mul_le_self _ _
    have h1I : ((d / C * C : Nat) : Int) ≤ (d : Int) := by exact_mod_cast h1
    omega
  · have hdm := Nat.div_add_mod d C
    have hrC : d % C < C := Nat.mod_lt _ hC
    have h2 : d < (d / C + 1) * C := by
      have he : (d / C + 1) * C = C * (d / C) + C := by ring
      omega
    have h2I : (d : Int) < (((d / C + 1) * C : Nat) : Int) := by exact_mod_cast h2
    have hlt1 : x < s0 + (((d / C + 1) * C : Nat) : Int) := by omega
    exact lt_min hlt1 hx2

/-- Uniqueness half of the chunk tiling: distinct chunk indices give disjoint
chunks. -/
theorem tile_mem_unique {s0 e0 : Int} {C : Nat} (hC : 0 < C) (x : Int) {j j2 : Nat}
    (h1a : s0 + ((j * C : Nat) : Int) ≤ x)
    (h1b : x < min (s0 + (((j + 1) * C : Nat) : Int)) e0)
    (h2a : s0 + ((j2 * C : Nat) : Int) ≤ x)
    (h2b : x < min (s0 + (((j2 + 1) * C : Nat) : Int)) e0) :
    j = j2 := by
  by_contra hne
  have h1b2 : x < s0 + (((j + 1) * C : Nat) : Int) :=
    lt_of_lt_of_le h1b (min_le_left _ _)
  have h2b2 : x < s0 + (((j2 + 1) * C : Nat) : Int) :=
    lt_of_lt_of_le h2b (min_le_left _ _)
  rcases Nat.lt_or_ge j j2 with h | h
  · have hmul : (j + 1) * C ≤ j2 * C := Nat.mul_le_mul_right _ h
    have hmulI : (((j + 1) * C : Nat) : Int) ≤ ((j2 * C : Nat) : Int) := by
      exact_mod_cast hmul
    omega
  · have hj2 : j2 < j := by omega
    have hmul : (j2 + 1) * C ≤ j * C := Nat.mul_le_mul_right _ hj2
    have hmulI : (((j2 + 1) * C : Nat) : Int) ≤ ((j * C : Nat) : Int) := by
      exact_mod_cast hmul
    omega

/-- Unique decomposition of a chunk index as partition plus multiple of the
partition count. -/
theorem euclid_unique {N p p2 k k2 : Nat} (hp : p < N) (hp2 : p2 < N)
    (h : p + k * N = p2 + k2 * N) : p = p2 ∧ k = k2 := by
  rcases Nat.lt_trichotomy k k2 with hlt | heq | hgt
  · exfalso
    have h2 : (k + 1) * N ≤ k2 * N := Nat.mul_le_mul_right _ hlt
    have h3 : (k + 1) * N = k * N + N := by ring
    omega
  · subst heq
    exact ⟨by omega, rfl⟩
  · exfalso
    have h2 : (k2 + 1) * N ≤ k * N := Nat.mul_le_mul_right _ hgt
    have h3 : (k2 + 1) * N = k2 * N + N := by ring
    omega

/-- The five operational cases of CyclicPartitioner::getNextImpl for an
in-range slot, written as closed-form equations. -/
theorem cyc_step_cases (st' : CycState) (p : Nat) (hnc : p < st'.nChunks) :
    (st'.state p = 0 →
      cycGetNextImpl st' p
        = (st'.curr p, { st' with state := Function.update st'.state p 1 })) ∧
    (st'.state p = 2 → cycGetNextImpl st' p = (st'.end_, st')) ∧
    (st'.state p = 1 → st'.src.end_ - (st'.curr p).start ≤ (st'.stride : Int) →
      cycGetNextImpl st' p
        = (st'.end_, { st' with state := Function.update st'.state p 2 })) ∧
    (st'.state p = 1 → (st'.stride : Int) < st'.src.end_ - (st'.curr p).start →
      (st'.stride : Int) < st'.src.end_ - (st'.curr p).end_ →
      cycGetNextImpl st' p
        = ({ st'.curr p with
             start := (st'.curr p).start + (st'.stride : Int)
             end_ := (st'.curr p).end_ + (st'.stride : Int) },
           { st' with
             curr := Function.update st'.curr p
               { st'.curr p with
                 start := (st'.curr p).start + (st'.stride : Int)
                 end_ := (st'.curr p).end_ + (st'.stride : Int) } })) ∧
    (st'.state p = 1 → (st'.stride : Int) < st'.src.end_ - (st'.curr p).start →
      st'.src.end_ - (st'.curr p).end_ ≤ (st'.stride : Int) →
      cycGetNextImpl st' p
        = ({ st'.curr p with
             start := (st'.curr p).start + (st'.stride : Int)
             end_ := st'.src.end_
             overlap := max 0 (min st'.ghostSize (st'.src.end_
               - ((st'.curr p).start + (st'.stride : Int) + (st'.chunkSize : Int)))) },
           { st' with
             curr := Function.update st'.curr p
               { st'.curr p with
                 start := (st'.curr p).start + (st'.stride : Int)
                 end_ := st'.src.end_
                 overlap := max 0 (min st'.ghostSize (st'.src.end_
                   - ((st'.curr p).start + (st'.stride : Int) + (st'.chunkSize : Int)))) }
             state := Function.update st'.state p 2 })) := by
  refine ⟨?_, ?_, ?_, ?_, ?_⟩
  · intro h0
    unfold cycGetNextImpl
    rw [if_neg (by omega), if_neg (by omega), if_pos h0]
  · intro h2
    unfold cycGetNextImpl
    rw [if_neg (by omega), if_pos h2]
  · intro h1 hfail
    unfold cycGetNextImpl
    rw [if_neg (by omega), if_neg (by omega), if_neg (by omega), if_neg (by omega)]
  · intro h1 hadv hend
    unfold cycGetNextImpl
    rw [if_neg (by omega), if_neg (by omega), if_neg (by omega), if_pos (by omega)]
    simp only []
    rw [if_pos (by omega)]
  · intro h1 hadv hend
    unfold cycGetNextImpl
    rw [if_neg (by omega), if_neg (by omega), if_neg (by omega), if_pos (by omega)]
    simp only []
    rw [if_neg (by omega)]

/-- A CyclicPartitioner traversal, one partition at a time: the (k+1)-th call
for partition p yields chunk number p + k * nPartitions of the uniform chunk
layout when that chunk starts inside the source, and the sentinel
otherwise. -/
theorem cyc_formula
    {src : Range} {N : Nat} {cs g : Int} {st : CycState}
    (hcfg : cycConfigure src N cs g = .ok st)
    (hse : src.start ≤ src.end_) (hcs : 1 ≤ cs)
    (p : Nat) (hpN : p < N) (k : Nat) :
    ((p + k * N) * cs.toNat < src.sizeN →
      (cycResultAt st p k).start
        = src.start + (((p + k * N) * cs.toNat : Nat) : Int) ∧
      (cycResultAt st p k).end_
        = min (src.start + (((p + k * N + 1) * cs.toNat : Nat) : Int)) src.end_ ∧
      (cycResultAt st p k).overlap = 0) ∧
    (src.sizeN ≤ (p + k * N) * cs.toNat →
      cycResultAt st p k = st.end_) := by
  obtain ⟨hN0, hg0, hcs0, hstEq⟩ := cycConfigure_ok hcfg
  have hC1 : 1 ≤ cs.toNat := by omega
  -- projection facts of the configured state
  have hsrc : st.src = { src with overlap := 0 } := by rw [hstEq]; rfl
  have hend2 : st.end_ = { src with overlap := 0, start := src.end_ } := by
    rw [hstEq]; rfl
  have hCs : st.chunkSize = cs.toNat := by rw [hstEq]; rfl
  have hgh : st.ghostSize = g := by rw [hstEq]; rfl
  have hnCh : st.nChunks = computeNumberOfChunksInt cs.toNat src.sizeN := by
    rw [hstEq]; rfl
  have hstr : st.stride
      = if computeNumberOfChunksInt cs.toNat src.sizeN > N
        then cs.toNat * N else src.sizeN := by
    rw [hstEq]; rfl
  have hstp : ∀ i, st.state i = 0 := by
    intro i
    rw [hstEq]
    show (if i < min _ N then 0 else 0) = 0
    split_ifs <;> rfl
  have hcurf : ∀ i, i < min (computeNumberOfChunksInt cs.toNat src.sizeN) N →
      (st.curr i).start = src.start + (i : Int) * (cs.toNat : Int) ∧
      (st.curr i).end_ = (if i = computeNumberOfChunksInt cs.toNat src.sizeN - 1
                          then src.end_
                          else src.start + (i : Int) * (cs.toNat : Int) + (cs.toNat : Int)) ∧
      (st.curr i).overlap = 0 := by
    intro i hi
    rw [hstEq]
    simp only [cycReset]
    rw [if_pos hi]
    refine ⟨rfl, ?_, rfl⟩
    split_ifs <;> [rfl; ring]
  -- abbreviations
  set C : Nat := cs.toNat with hCdef
  set S : Nat := src.sizeN with hSdef
  set nCh : Nat := computeNumberOfChunksInt C S with hnChdef
  have hSI : (S : Int) = src.end_ - src.start := by
    rw [hSdef]
    exact Int.toNat_of_nonneg (by omega)
  have hjlt : ∀ j : Nat, (j * C < S ↔ j < nCh) := fun j => chunk_lt_iff hC1 j
  have hnchS : S ≤ nCh * C := by
    by_contra hlt
    push_neg at hlt
    have := (hjlt nCh).mp hlt
    omega
  -- out-of-range partitions always get the sentinel
  by_cases hpc : nCh ≤ p
  · have hfix : ∀ kk, cycStateAfter st p kk = st := by
      intro kk
      induction kk with
      | zero => rfl
      | succ kk ih =>
        show (cycGetNextImpl (cycStateAfter st p kk) p).2 = st
        rw [ih]
        unfold cycGetNextImpl
        rw [if_pos (by omega)]
    have hres : cycResultAt st p k = st.end_ := by
      unfold cycResultAt
      rw [hfix]
      unfold cycGetNextImpl
      rw [if_pos (by omega)]
    constructor
    · intro habs
      exfalso
      have := (hjlt (p + k * N)).mp habs
      have hmul : p * C ≤ (p + k * N) * C := Nat.mul_le_mul_right _ (by omega)
      have := (hjlt p).mpr (by omega)
      omega
    · intro _
      exact hres
  -- in-range partitions: the per-slot state machine
  push_neg at hpc
  have hpmin : p < min nCh N := by omega
  have hfirst := hcurf p hpmin
  -- the advance condition in terms of chunk indices
  have hadv : ∀ a : Nat, ((st.stride : Int) < src.end_ - (src.start + ((a * C : Nat) : Int))
      ↔ (a + N) * C < S) := by
    intro a
    rw [hstr]
    have hr : (a + N) * C = a * C + N * C := by ring
    have hr2 : C * N = N * C := by ring
    split_ifs with hcase
    · constructor
      · intro h
        have : ((C * N : Nat) : Int) < (S : Int) - ((a * C : Nat) : Int) := by
          push_cast at h ⊢
          omega
        have hN2 : (C * N : Nat) < S - a * C := by omega
        omega
      · intro h
        have : ((C * N : Nat) : Int) + ((a * C : Nat) : Int) < (S : Int) := by
          exact_mod_cast (by omega : C * N + a * C < S)
        push_cast at this ⊢
        omega
    · push_neg at hcase
      constructor
      · intro h
        exfalso
        have h0 : (0 : Int) ≤ ((a * C : Nat) : Int) := by positivity
        omega
      · intro h
        exfalso
        have hmul : nCh * C ≤ (a + N) * C := Nat.mul_le_mul_right _ (by omega)
        omega
  have hmono : ∀ a b : Nat, a ≤ b → a * C ≤ b * C := fun a b h =>
    Nat.mul_le_mul_right _ h
  have hsrcEndEq : st.src.end_ = src.end_ := by rw [hsrc]
  -- the per-slot state machine, by induction over the number of calls
  have main : ∀ kk : Nat,
      ((cycStateAfter st p kk).src = st.src ∧
       (cycStateAfter st p kk).end_ = st.end_ ∧
       (cycStateAfter st p kk).nChunks = st.nChunks ∧
       (cycStateAfter st p kk).stride = st.stride ∧
       (cycStateAfter st p kk).chunkSize = st.chunkSize ∧
       (cycStateAfter st p kk).ghostSize = st.ghostSize) ∧
      ((kk = 0 → (cycStateAfter st p kk).state p = 0 ∧
          (cycStateAfter st p kk).curr p = st.curr p) ∧
       (∀ k0, kk = k0 + 1 →
         (((p + k0 * N + 1) * C < S →
            (cycStateAfter st p kk).state p = 1 ∧
            ((cycStateAfter st p kk).curr p).start
              = src.start + (((p + k0 * N) * C : Nat) : Int) ∧
            ((cycStateAfter st p kk).curr p).end_
              = src.start + (((p + k0 * N + 1) * C : Nat) : Int) ∧
            ((cycStateAfter st p kk).curr p).overlap = 0) ∧
          (S ≤ (p + k0 * N + 1) * C → k0 = 0 →
            (cycStateAfter st p kk).state p = 1 ∧
            (cycStateAfter st p kk).curr p = st.curr p) ∧
          (S ≤ (p + k0 * N + 1) * C → 1 ≤ k0 →
            (cycStateAfter st p kk).state p = 2)))) ∧
      (∀ k0, kk = k0 + 1 →
         (((p + k0 * N) * C < S →
            (cycResultAt st p k0).start
              = src.start + (((p + k0 * N) * C : Nat) : Int) ∧
            (cycResultAt st p k0).end_
              = min (src.start + (((p + k0 * N + 1) * C : Nat) : Int)) src.end_ ∧
            (cycResultAt st p k0).overlap = 0) ∧
          (S ≤ (p + k0 * N) * C → cycResultAt st p k0 = st.end_))) := by
    intro kk
    induction kk with
    | zero =>
      refine ⟨⟨rfl, rfl, rfl, rfl, rfl, rfl⟩,
        ⟨fun _ => ⟨hstp p, rfl⟩, fun k0 h => absurd h (by omega)⟩,
        fun k0 h => absurd h (by omega)⟩
    | succ kk ih =>
      obtain ⟨⟨g1, g2, g3, g4, g5, g6⟩, ⟨d0, dS⟩, _⟩ := ih
      have hnc2 : p < (cycStateAfter st p kk).nChunks := by omega
      have steps := cyc_step_cases (cycStateAfter st p kk) p hnc2
      have hAs : cycStateAfter st p (kk + 1)
          = (cycGetNextImpl (cycStateAfter st p kk) p).2 := rfl
      have hRs : cycResultAt st p kk
          = (cycGetNextImpl (cycStateAfter st p kk) p).1 := rfl
      rcases Nat.eq_zero_or_pos kk with hkk0 | hkkpos
      · -- the first call: BEFORE, return the precomputed chunk
        subst hkk0
        obtain ⟨hs0, hc0⟩ := d0 rfl
        have heq := steps.1 hs0
        have hpC : p * C < S := (hjlt p).mpr hpc
        have hfe : (st.curr p).start = src.start + ((p * C : Nat) : Int) := by
          rw [hfirst.1]
          push_cast
          ring
        refine ⟨?_, ⟨fun h => absurd h (by omega), ?_⟩, ?_⟩
        · rw [hAs, heq]
          exact ⟨g1, g2, g3, g4, g5, g6⟩
        · intro k0 hk0
          have hk00 : k0 = 0 := by omega
          subst hk00
          refine ⟨?_, ?_, fun _ h => absurd h (by omega)⟩
          · intro hlt
            have hpne : p ≠ nCh - 1 := by
              intro hpe
              have : nCh ≤ p + 0 * N + 1 := by omega
              have := hmono nCh (p + 0 * N + 1) this
              omega
            refine ⟨?_, ?_, ?_, ?_⟩
            · rw [hAs, heq]
              dsimp only
              rw [Function.update_same]
            · rw [hAs, heq]
              dsimp only
              rw [hc0, hfe]
              norm_num
            · rw [hAs, heq]
              dsimp only
              rw [hc0, hfirst.2.1, if_neg (by omega)]
              push_cast
              ring
            · rw [hAs, heq]
              dsimp only
              rw [hc0, hfirst.2.2]
          · intro hge _
            constructor
            · rw [hAs, heq]
              dsimp only
              rw [Function.update_same]
            · rw [hAs, heq]
              dsimp only
              rw [hc0]
        · intro k0 hk0
          have hk00 : k0 = 0 := by omega
          subst hk00
          constructor
          · intro _
            refine ⟨?_, ?_, ?_⟩
            · rw [hRs, heq, hc0, hfe]
              norm_num
            · rw [hRs, heq, hc0, hfirst.2.1]
              by_cases hpe : p = nCh - 1
              · rw [if_pos hpe]
                have h1 : nCh ≤ p + 0 * N + 1 := by omega
                have h2 := hmono nCh (p + 0 * N + 1) h1
                rw [min_eq_right (by omega)]
              · rw [if_neg hpe]
                have h1 : p + 0 * N + 1 ≤ nCh - 1 := by omega
                have h2 := hmono (p + 0 * N + 1) (nCh - 1) h1
                have h3 : (nCh - 1) * C < S := (hjlt (nCh - 1)).mpr (by omega)
                rw [min_eq_left (by omega)]
                push_cast
                ring
            · rw [hRs, heq, hc0, hfirst.2.2]
          · intro hge
            exfalso
            have := (hjlt (p + 0 * N)).mpr (by omega)
            omega
      · -- later calls: the slot is DURING or AFTER
        obtain ⟨kk0, hkkE⟩ : ∃ kk0, kk = kk0 + 1 := ⟨kk - 1, by omega⟩
        obtain ⟨c1, c2, c3⟩ := dS kk0 hkkE
        have hb : p + kk * N = (p + kk0 * N) + N := by
          rw [hkkE]
          ring
        by_cases hC1lt : (p + kk0 * N + 1) * C < S
        · -- DURING with an unclamped cached chunk
          obtain ⟨hs1, hcs1, hce1, hco1⟩ := c1 hC1lt
          have hstart : ((cycStateAfter st p kk).stride : Int)
                < (cycStateAfter st p kk).src.end_
                  - ((cycStateAfter st p kk).curr p).start
              ↔ (p + kk * N) * C < S := by
            rw [g1, g4, hsrcEndEq, hcs1, hb]
            exact hadv (p + kk0 * N)
          by_cases hbS : (p + kk * N) * C < S
          · -- the start advance succeeds
            have hNlt : N < nCh := by
              have h1 := (hjlt (p + kk * N)).mp hbS
              omega
            have hstrv : st.stride = C * N := by
              rw [hstr, if_pos (by omega)]
            have hendadv : ((cycStateAfter st p kk).stride : Int)
                  < (cycStateAfter st p kk).src.end_
                    - ((cycStateAfter st p kk).curr p).end_
                ↔ (p + kk * N + 1) * C < S := by
              rw [g1, g4, hsrcEndEq, hce1]
              have := hadv (p + kk0 * N + 1)
              have hre : p + kk0 * N + 1 + N = p + kk * N + 1 := by omega
              rw [hre] at this
              exact this
            have hnewstart : ((cycStateAfter st p kk).curr p).start
                  + ((cycStateAfter st p kk).stride : Int)
                = src.start + (((p + kk * N) * C : Nat) : Int) := by
              rw [hcs1, g4, hstrv, hb]
              have : ((p + kk0 * N) + N) * C = (p + kk0 * N) * C + C * N := by ring
              rw [this]
              push_cast
              ring
            by_cases hb1S : (p + kk * N + 1) * C < S
            · -- unclamped advance
              have heq := steps.2.2.2.1 hs1 (hstart.mpr hbS) (hendadv.mpr hb1S)
              have hnewend : ((cycStateAfter st p kk).curr p).end_
                    + ((cycStateAfter st p kk).stride : Int)
                  = src.start + (((p + kk * N + 1) * C : Nat) : Int) := by
                rw [hce1, g4, hstrv]
                have : (p + kk * N + 1) * C = (p + kk0 * N + 1) * C + C * N := by
                  rw [hkkE]
                  ring
                rw [this]
                push_cast
                ring
              refine ⟨?_, ⟨fun h => absurd h (by omega), ?_⟩, ?_⟩
              · rw [hAs, heq]
                exact ⟨g1, g2, g3, g4, g5, g6⟩
              · intro k0 hk0
                have hk0E : k0 = kk := by omega
                rw [hk0E]
                refine ⟨?_, fun _ h => absurd h (by omega),
                  fun hge _ => absurd hb1S (by omega)⟩
                intro _
                refine ⟨?_, ?_, ?_, ?_⟩
                · rw [hAs, heq]
                  dsimp only
                  exact hs1
                · rw [hAs, heq]
                  dsimp only
                  rw [Function.update_same]
                  dsimp only
                  exact hnewstart
                · rw [hAs, heq]
                  dsimp only
                  rw [Function.update_same]
                  dsimp only
                  exact hnewend
                · rw [hAs, heq]
                  dsimp only
                  rw [Function.update_same]
                  dsimp only
                  exact hco1
              · intro k0 hk0
                have hk0E : k0 = kk := by omega
                rw [hk0E]
                refine ⟨fun _ => ⟨?_, ?_, ?_⟩, fun hge => absurd hge (by omega)⟩
                · rw [hRs, heq]
                  dsimp only
                  exact hnewstart
                · rw [hRs, heq]
                  dsimp only
                  rw [hnewend]
                  rw [min_eq_left (by omega)]
                · rw [hRs, heq]
                  dsimp only
                  exact hco1
            · -- clamped advance: final chunk of this slot
              have heq := steps.2.2.2.2 hs1 (hstart.mpr hbS) (by omega)
              have hremneg : (cycStateAfter st p kk).src.end_
                    - (((cycStateAfter st p kk).curr p).start
                      + ((cycStateAfter st p kk).stride : Int)
                      + ((cycStateAfter st p kk).chunkSize : Int)) ≤ 0 := by
                rw [g1, hsrcEndEq, g5, hCs, hnewstart]
                have h1 : (p + kk * N + 1) * C = (p + kk * N) * C + C := by ring
                omega
              have hov0 : max 0 (min (cycStateAfter st p kk).ghostSize
                    ((cycStateAfter st p kk).src.end_
                      - (((cycStateAfter st p kk).curr p).start
                        + ((cycStateAfter st p kk).stride : Int)
                        + ((cycStateAfter st p kk).chunkSize : Int)))) = 0 := by
                have hg2 : 0 ≤ (cycStateAfter st p kk).ghostSize := by
                  rw [g6, hgh]
                  omega
                omega
              refine ⟨?_, ⟨fun h => absurd h (by omega), ?_⟩, ?_⟩
              · rw [hAs, heq]
                exact ⟨g1, g2, g3, g4, g5, g6⟩
              · intro k0 hk0
                have hk0E : k0 = kk := by omega
                rw [hk0E]
                refine ⟨fun h => absurd h (by omega),
                  fun _ h => absurd h (by omega), fun _ _ => ?_⟩
                rw [hAs, heq]
                dsimp only
                rw [Function.update_same]
              · intro k0 hk0
                have hk0E : k0 = kk := by omega
                rw [hk0E]
                refine ⟨fun _ => ⟨?_, ?_, ?_⟩, fun hge => absurd hge (by omega)⟩
                · rw [hRs, heq]
                  dsimp only
                  exact hnewstart
                · rw [hRs, heq]
                  dsimp only
                  rw [g1, hsrcEndEq]
                  rw [min_eq_right (by omega)]
                · rw [hRs, heq]
                  dsimp only
                  exact hov0
          · -- the start advance fails: sentinel, slot goes AFTER
            have heq := steps.2.2.1 hs1 (by omega)
            refine ⟨?_, ⟨fun h => absurd h (by omega), ?_⟩, ?_⟩
            · rw [hAs, heq]
              exact ⟨g1, g2, g3, g4, g5, g6⟩
            · intro k0 hk0
              have hk0E : k0 = kk := by omega
              rw [hk0E]
              have hmn : (p + kk * N) * C ≤ (p + kk * N + 1) * C :=
                hmono _ _ (by omega)
              refine ⟨fun h => absurd h (by omega),
                fun _ h => absurd h (by omega), fun _ _ => ?_⟩
              rw [hAs, heq]
              dsimp only
              rw [Function.update_same]
            · intro k0 hk0
              have hk0E : k0 = kk := by omega
              rw [hk0E]
              refine ⟨fun h => absurd h (by omega), fun _ => ?_⟩
              rw [hRs, heq, g2]
        · -- the cached chunk was the slot's final one (or the slot is done)
          have hbge : S ≤ (p + kk * N) * C := by
            have h1 : (p + kk0 * N + 1) ≤ p + kk * N := by
              rw [hkkE]
              have hx : (kk0 + 1) * N = kk0 * N + N := by ring
              have : 1 ≤ N := by omega
              omega
            have := hmono (p + kk0 * N + 1) (p + kk * N) h1
            omega
          rcases Nat.eq_zero_or_pos kk0 with hkk00 | hkk0pos
          · -- second call right after a final first chunk
            subst hkk00
            obtain ⟨hs1, hc1⟩ := c2 (by omega) rfl
            have hstart2 : (cycStateAfter st p kk).src.end_
                  - ((cycStateAfter st p kk).curr p).start
                ≤ ((cycStateAfter st p kk).stride : Int) := by
              rw [g1, g4, hsrcEndEq, hc1]
              have hfe : (st.curr p).start = src.start + ((p * C : Nat) : Int) := by
                rw [hfirst.1]
                push_cast
                ring
              rw [hfe]
              have h1 : p + 0 * N + N = p + kk * N := by omega
              have := hadv (p + 0 * N)
              rw [h1] at this
              have h2 : p + 0 * N = p := by omega
              rw [h2] at this
              omega
            have heq := steps.2.2.1 hs1 hstart2
            refine ⟨?_, ⟨fun h => absurd h (by omega), ?_⟩, ?_⟩
            · rw [hAs, heq]
              exact ⟨g1, g2, g3, g4, g5, g6⟩
            · intro k0 hk0
              have hk0E : k0 = kk := by omega
              rw [hk0E]
              have hmn : (p + kk * N) * C ≤ (p + kk * N + 1) * C :=
                hmono _ _ (by omega)
              refine ⟨fun h => absurd h (by omega),
                fun _ h => absurd h (by omega), fun _ _ => ?_⟩
              rw [hAs, heq]
              dsimp only
              rw [Function.update_same]
            · intro k0 hk0
              have hk0E : k0 = kk := by omega
              rw [hk0E]
              refine ⟨fun h => absurd h (by omega), fun _ => ?_⟩
              rw [hRs, heq, g2]
          · -- the slot is already AFTER
            have hs2 := c3 (by omega) hkk0pos
            have heq := steps.2.1 hs2
            refine ⟨?_, ⟨fun h => absurd h (by omega), ?_⟩, ?_⟩
            · rw [hAs, heq]
              exact ⟨g1, g2, g3, g4, g5, g6⟩
            · intro k0 hk0
              have hk0E : k0 = kk := by omega
              rw [hk0E]
              have hmn : (p + kk * N) * C ≤ (p + kk * N + 1) * C :=
                hmono _ _ (by omega)
              refine ⟨fun h => absurd h (by omega),
                fun _ h => absurd h (by omega), fun _ _ => ?_⟩
              rw [hAs, heq]
              exact hs2
            · intro k0 hk0
              have hk0E : k0 = kk := by omega
              rw [hk0E]
              refine ⟨fun h => absurd h (by omega), fun _ => ?_⟩
              rw [hRs, heq, g2]
  exact (main (k + 1)).2.2 k rfl

/-- Coverage of a full cyclic traversal: the non-sentinel chunks returned
over all partitions tile [src.start, src.end) exactly, and their non-ghost
cores are pairwise disjoint. -/
theorem cyc_coverage
    {src : Range} {N : Nat} {cs g : Int} {st : CycState}
    (hcfg : cycConfigure src N cs g = .ok st)
    (hse : src.start ≤ src.end_) (hcs : 1 ≤ cs) :
    (∀ x : Int, (src.start ≤ x ∧ x < src.end_) ↔
      ∃ p, p < N ∧ ∃ k, inRange (cycResultAt st p k) x) ∧
    (∀ p k p2 k2, p < N → p2 < N → (p, k) ≠ (p2, k2) →
      ∀ x, inRange (coreOf (cycResultAt st p k)) x →
        ¬ inRange (coreOf (cycResultAt st p2 k2)) x) := by
  obtain ⟨hN0, hg0, hcs0, hstEq⟩ := cycConfigure_ok hcfg
  have hC1 : 1 ≤ cs.toNat := by omega
  have hend2 : st.end_ = { src with overlap := 0, start := src.end_ } := by
    rw [hstEq]; rfl
  have he1 : st.end_.start = src.end_ := by rw [hend2]
  have he2 : st.end_.end_ = src.end_ := by rw [hend2]
  have he3 : st.end_.overlap = 0 := by rw [hend2]
  have hSI : ((src.sizeN : Nat) : Int) = src.end_ - src.start := by
    unfold Range.sizeN
    exact Int.toNat_of_nonneg (by omega)
  constructor
  · intro x
    constructor
    · rintro ⟨hx1, hx2⟩
      obtain ⟨j, hj1, hj2, hj3⟩ := tile_mem_exists hC1 x hx1 hx2
      refine ⟨j % N, Nat.mod_lt _ (by omega), j / N, ?_⟩
      have hmd := Nat.mod_add_div j N
      have hring : N * (j / N) = (j / N) * N := by ring
      have hjdec : j % N + j / N * N = j := by omega
      have hform := cyc_formula hcfg hse hcs (j % N) (Nat.mod_lt _ (by omega)) (j / N)
      rw [hjdec] at hform
      have hjC : j * cs.toNat < src.sizeN := by omega
      obtain ⟨ha, hb, hc⟩ := hform.1 hjC
      unfold inRange
      rw [ha, hb]
      omega
    · rintro ⟨p, hp, k, hmem⟩
      unfold inRange at hmem
      have hform := cyc_formula hcfg hse hcs p hp k
      by_cases hj : (p + k * N) * cs.toNat < src.sizeN
      · obtain ⟨ha, hb, hc⟩ := hform.1 hj
        rw [ha, hb] at hmem
        omega
      · have hsen := hform.2 (by omega)
        rw [hsen] at hmem
        omega
  · intro p k p2 k2 hp hp2 hne x hm1 hm2
    unfold inRange coreOf at hm1 hm2
    dsimp only at hm1 hm2
    have hf1 := cyc_formula hcfg hse hcs p hp k
    have hf2 := cyc_formula hcfg hse hcs p2 hp2 k2
    by_cases hj1 : (p + k * N) * cs.toNat < src.sizeN
    · by_cases hj2 : (p2 + k2 * N) * cs.toNat < src.sizeN
      · obtain ⟨ha1, hb1, hc1⟩ := hf1.1 hj1
        obtain ⟨ha2, hb2, hc2⟩ := hf2.1 hj2
        rw [ha1, hb1, hc1] at hm1
        rw [ha2, hb2, hc2] at hm2
        have hu : p + k * N = p2 + k2 * N :=
          @tile_mem_unique src.start src.end_ cs.toNat hC1 x (p + k * N)
            (p2 + k2 * N) (by omega) (by omega) (by omega) (by omega)
        obtain ⟨hpe, hke⟩ := euclid_unique hp hp2 hu
        exact hne (by rw [hpe, hke])
      · have hsen := hf2.2 (by omega)
        rw [hsen, he1, he2, he3] at hm2
        omega
    · have hsen := hf1.2 (by omega)
      rw [hsen, he1, he2, he3] at hm1
      omega

/-- The three operational cases of DemandDrivenPartitioner::getNextImpl,
written as closed-form equations. -/
theorem dd_step_cases (st' : DDState) (p : Nat) :
    (st'.done = true → ddGetNextImpl st' p = (st'.end_, st')) ∧
    (st'.done = false → st'.src.end_ ≤ st'.chunkOffset →
      ddGetNextImpl st' p
        = (st'.end_,
           { st' with
             chunkOffset := st'.chunkOffset + (st'.chunkSize : Int)
             chunkId := st'.chunkId + 1
             done := true })) ∧
    (st'.done = false → st'.chunkOffset < st'.src.end_ →
      ddGetNextImpl st' p
        = ({ st'.curr (if st'.nChunks < st'.nPartitions then st'.chunkId else p) with
             start := st'.chunkOffset
             end_ := if st'.src.end_ - st'.chunkOffset
                        > (st'.chunkSize : Int) + st'.src.overlap
                     then st'.chunkOffset + (st'.chunkSize : Int) + st'.src.overlap
                     else st'.src.end_ },
           { st' with
             chunkOffset := st'.chunkOffset + (st'.chunkSize : Int)
             chunkId := st'.chunkId + 1
             curr := Function.update st'.curr
               (if st'.nChunks < st'.nPartitions then st'.chunkId else p)
               { st'.curr (if st'.nChunks < st'.nPartitions then st'.chunkId else p) with
                 start := st'.chunkOffset
                 end_ := if st'.src.end_ - st'.chunkOffset
                            > (st'.chunkSize : Int) + st'.src.overlap
                         then st'.chunkOffset + (st'.chunkSize : Int) + st'.src.overlap
                         else st'.src.end_ } })) := by
  refine ⟨?_, ?_, ?_⟩
  · intro h
    unfold ddGetNextImpl
    rw [if_pos h]
  · intro h hge
    unfold ddGetNextImpl
    rw [if_neg (by simp [h])]
    simp only []
    rw [if_pos (by omega)]
  · intro h hlt
    unfold ddGetNextImpl
    rw [if_neg (by simp [h])]
    simp only []
    rw [if_neg (by omega)]

/-- A demand-driven traversal under any interleaving of partition ids: the
(t+1)-th call overall yields chunk number t of the uniform chunk layout when
that chunk starts inside the source, and the sentinel otherwise. -/
theorem dd_formula
    {src : Range} {N : Nat} {cs g : Int} {st : DDState}
    (hcfg : ddConfigure src N cs g = .ok st)
    (hse : src.start ≤ src.end_) (hcs : 1 ≤ cs)
    (pseq : Nat → Nat) (t : Nat) :
    (t * cs.toNat < src.sizeN →
      (ddResultAt st pseq t).start = src.start + ((t * cs.toNat : Nat) : Int) ∧
      (ddResultAt st pseq t).end_
        = min (src.start + (((t + 1) * cs.toNat : Nat) : Int)) src.end_ ∧
      (ddResultAt st pseq t).overlap = 0) ∧
    (src.sizeN ≤ t * cs.toNat → ddResultAt st pseq t = st.end_) := by
  obtain ⟨hN0, hg0, hcs0, hstEq⟩ := ddConfigure_ok hcfg
  have hC1 : 1 ≤ cs.toNat := by omega
  set C : Nat := cs.toNat with hCdef
  set S : Nat := src.sizeN with hSdef
  set nCh : Nat := computeNumberOfChunksInt C S with hnChdef
  have hsrc : st.src = { src with overlap := 0 } := by rw [hstEq]; rfl
  have hend2 : st.end_ = { src with overlap := 0, start := src.end_ } := by
    rw [hstEq]; rfl
  have hCs : st.chunkSize = C := by rw [hstEq]; rfl
  have hnCh : st.nChunks = nCh := by rw [hstEq]; rfl
  have hdone : st.done = false := by rw [hstEq]; rfl
  have hoff : st.chunkOffset = src.start := by rw [hstEq]; rfl
  have hovs : ∀ i, (st.curr i).overlap = 0 := by
    intro i
    rw [hstEq]
    show (if i < min N nCh then _ else _ : Range).overlap = 0
    split_ifs <;> rfl
  have hSI : (S : Int) = src.end_ - src.start := by
    rw [hSdef]
    unfold Range.sizeN
    exact Int.toNat_of_nonneg (by omega)
  have hjlt : ∀ j : Nat, (j * C < S ↔ j < nCh) := fun j => chunk_lt_iff hC1 j
  have hnchS : S ≤ nCh * C := by
    by_contra hlt
    push_neg at hlt
    have := (hjlt nCh).mp hlt
    omega
  have hmono : ∀ a b : Nat, a ≤ b → a * C ≤ b * C := fun a b h =>
    Nat.mul_le_mul_right _ h
  have hsrcEndEq : st.src.end_ = src.end_ := by rw [hsrc]
  have hsrcOv : st.src.overlap = 0 := by rw [hsrc]
  have main : ∀ tt : Nat,
      ((ddStateAfter st pseq tt).src = st.src ∧
       (ddStateAfter st pseq tt).end_ = st.end_ ∧
       (ddStateAfter st pseq tt).nChunks = st.nChunks ∧
       (ddStateAfter st pseq tt).nPartitions = st.nPartitions ∧
       (ddStateAfter st pseq tt).chunkSize = st.chunkSize) ∧
      (∀ i, ((ddStateAfter st pseq tt).curr i).overlap = 0) ∧
      (tt ≤ nCh → (ddStateAfter st pseq tt).done = false ∧
        (ddStateAfter st pseq tt).chunkOffset = src.start + ((tt * C : Nat) : Int)) ∧
      (nCh + 1 ≤ tt → (ddStateAfter st pseq tt).done = true) ∧
      (∀ t0, tt = t0 + 1 →
        ((t0 * C < S →
           (ddResultAt st pseq t0).start = src.start + ((t0 * C : Nat) : Int) ∧
           (ddResultAt st pseq t0).end_
             = min (src.start + (((t0 + 1) * C : Nat) : Int)) src.end_ ∧
           (ddResultAt st pseq t0).overlap = 0) ∧
         (S ≤ t0 * C → ddResultAt st pseq t0 = st.end_))) := by
    intro tt
    induction tt with
    | zero =>
      refine ⟨⟨rfl, rfl, rfl, rfl, rfl⟩, hovs, fun _ => ⟨hdone, ?_⟩,
        fun h => absurd h (by omega), fun t0 h => absurd h (by omega)⟩
      show st.chunkOffset = src.start + ((0 * C : Nat) : Int)
      rw [hoff]
      norm_num
    | succ tt ih =>
      obtain ⟨⟨g1, g2, g3, g4, g5⟩, hov2, hrun, hdn, _⟩ := ih
      have steps := dd_step_cases (ddStateAfter st pseq tt) (pseq tt)
      have hAs : ddStateAfter st pseq (tt + 1)
          = (ddGetNextImpl (ddStateAfter st pseq tt) (pseq tt)).2 := rfl
      have hRs : ddResultAt st pseq tt
          = (ddGetNextImpl (ddStateAfter st pseq tt) (pseq tt)).1 := rfl
      rcases Nat.lt_trichotomy tt nCh with hlt | heq | hgt
      · -- a chunk is served
        obtain ⟨hdf, hofft⟩ := hrun (by omega)
        have htC : tt * C < S := (hjlt tt).mpr hlt
        have hofflt : (ddStateAfter st pseq tt).chunkOffset
            < (ddStateAfter st pseq tt).src.end_ := by
          rw [hofft, g1, hsrcEndEq]
          omega
        have heq2 := steps.2.2 hdf hofflt
        have he1 : (tt + 1) * C = tt * C + C := by ring
        refine ⟨?_, ?_, ?_, fun h => absurd h (by omega), ?_⟩
        · rw [hAs, heq2]
          exact ⟨g1, g2, g3, g4, g5⟩
        · intro i
          rw [hAs, heq2]
          dsimp only
          by_cases hi : i = (if (ddStateAfter st pseq tt).nChunks
              < (ddStateAfter st pseq tt).nPartitions
              then (ddStateAfter st pseq tt).chunkId else pseq tt)
          · rw [hi, Function.update_same]
            exact hov2 _
          · rw [Function.update_noteq hi]
            exact hov2 i
        · intro _
          constructor
          · rw [hAs, heq2]
            exact hdf
          · rw [hAs, heq2]
            dsimp only
            rw [hofft, g5, hCs]
            push_cast [he1]
            ring
        · intro t0 ht0
          have ht0E : t0 = tt := by omega
          rw [ht0E]
          refine ⟨fun _ => ⟨?_, ?_, ?_⟩, fun hge => absurd hge (by omega)⟩
          · rw [hRs, heq2]
            dsimp only
            exact hofft
          · rw [hRs, heq2]
            dsimp only
            rw [hofft, g1, hsrcEndEq, g5, hCs, hsrcOv]
            split_ifs with hcond
            · rw [min_eq_left (by omega)]
              push_cast [he1]
              ring
            · rw [min_eq_right (by omega)]
          · rw [hRs, heq2]
            dsimp only
            exact hov2 _
      · -- the reserving call that discovers exhaustion
        subst heq
        obtain ⟨hdf, hofft⟩ := hrun le_rfl
        have hoffge : (ddStateAfter st pseq nCh).src.end_
            ≤ (ddStateAfter st pseq nCh).chunkOffset := by
          rw [hofft, g1, hsrcEndEq]
          omega
        have heq2 := steps.2.1 hdf hoffge
        refine ⟨?_, ?_, fun h => absurd h (by omega), fun _ => ?_, ?_⟩
        · rw [hAs, heq2]
          exact ⟨g1, g2, g3, g4, g5⟩
        · intro i
          rw [hAs, heq2]
          exact hov2 i
        · rw [hAs, heq2]
        · intro t0 ht0
          have ht0E : t0 = nCh := by omega
          rw [ht0E]
          refine ⟨fun hlt2 => absurd hlt2 (by omega), fun _ => ?_⟩
          rw [hRs, heq2, g2]
      · -- already exhausted
        have hdt := hdn (by omega)
        have heq2 := steps.1 hdt
        refine ⟨?_, ?_, fun h => absurd h (by omega), fun _ => ?_, ?_⟩
        · rw [hAs, heq2]
          exact ⟨g1, g2, g3, g4, g5⟩
        · intro i
          rw [hAs, heq2]
          exact hov2 i
        · rw [hAs, heq2]
          exact hdt
        · intro t0 ht0
          have ht0E : t0 = tt := by omega
          rw [ht0E]
          have hmn := hmono nCh tt (by omega)
          refine ⟨fun hlt2 => absurd hlt2 (by omega), fun _ => ?_⟩
          rw [hRs, heq2, g2]
  exact (main (t + 1)).2.2.2.2 t rfl

/-- Coverage of a full demand-driven traversal, under any interleaving of
callers: the non-sentinel chunks tile [src.start, src.end) exactly and are
pairwise disjoint. -/
theorem dd_coverage
    {src : Range} {N : Nat} {cs g : Int} {st : DDState}
    (hcfg : ddConfigure src N cs g = .ok st)
    (hse : src.start ≤ src.end_) (hcs : 1 ≤ cs) (pseq : Nat → Nat) :
    (∀ x : Int, (src.start ≤ x ∧ x < src.end_) ↔
      ∃ t, inRange (ddResultAt st pseq t) x) ∧
    (∀ t t2, t ≠ t2 →
      ∀ x, inRange (coreOf (ddResultAt st pseq t)) x →
        ¬ inRange (coreOf (ddResultAt st pseq t2)) x) := by
  obtain ⟨hN0, hg0, hcs0, hstEq⟩ := ddConfigure_ok hcfg
  have hC1 : 1 ≤ cs.toNat := by omega
  have hend2 : st.end_ = { src with overlap := 0, start := src.end_ } := by
    rw [hstEq]; rfl
  have he1 : st.end_.start = src.end_ := by rw [hend2]
  have he2 : st.end_.end_ = src.end_ := by rw [hend2]
  have he3 : st.end_.overlap = 0 := by rw [hend2]
  have hSI : ((src.sizeN : Nat) : Int) = src.end_ - src.start := by
    unfold Range.sizeN
    exact Int.toNat_of_nonneg (by omega)
  constructor
  · intro x
    constructor
    · rintro ⟨hx1, hx2⟩
      obtain ⟨j, hj1, hj2, hj3⟩ := tile_mem_exists hC1 x hx1 hx2
      refine ⟨j, ?_⟩
      have hform := dd_formula hcfg hse hcs pseq j
      have hjC : j * cs.toNat < src.sizeN := by omega
      obtain ⟨ha, hb, hc⟩ := hform.1 hjC
      unfold inRange
      rw [ha, hb]
      omega
    · rintro ⟨t, hmem⟩
      unfold inRange at hmem
      have hform := dd_formula hcfg hse hcs pseq t
      by_cases hj : t * cs.toNat < src.sizeN
      · obtain ⟨ha, hb, hc⟩ := hform.1 hj
        rw [ha, hb] at hmem
        omega
      · have hsen := hform.2 (by omega)
        rw [hsen] at hmem
        omega
  · intro t t2 hne x hm1 hm2
    unfold inRange coreOf at hm1 hm2
    dsimp only at hm1 hm2
    have hf1 := dd_formula hcfg hse hcs pseq t
    have hf2 := dd_formula hcfg hse hcs pseq t2
    by_cases hj1 : t * cs.toNat < src.sizeN
    · by_cases hj2 : t2 * cs.toNat < src.sizeN
      · obtain ⟨ha1, hb1, hc1⟩ := hf1.1 hj1
        obtain ⟨ha2, hb2, hc2⟩ := hf2.1 hj2
        rw [ha1, hb1, hc1] at hm1
        rw [ha2, hb2, hc2] at hm2
        exact hne (@tile_mem_unique src.start src.end_ cs.toNat hC1 x t t2
          (by omega) (by omega) (by omega) (by omega))
      · have hsen := hf2.2 (by omega)
        rw [hsen, he1, he2, he3] at hm2
        omega
    · have hsen := hf1.2 (by omega)
      rw [hsen, he1, he2, he3] at hm1
      omega

/-- The block split offsets advance by chunkSize, plus one for the first
S mod N partitions. -/
theorem blockOffN_step (S N p : Nat) :
    blockOffN S N (p + 1)
      = blockOffN S N p + (S / N + if p < S % N then 1 else 0) := by
  unfold blockOffN
  by_cases h1 : p + 1 < S % N
  · rw [if_pos h1, if_pos (by omega), if_pos (by omega)]
    ring
  · rw [if_neg h1]
    by_cases h2 : p < S % N
    · rw [if_pos h2, if_pos h2]
      have hpe : p + 1 = S % N := by omega
      have he : (p + 1) * (S / N) = p * (S / N) + S / N := by ring
      have he2 : p * (S / N + 1) = p * (S / N) + p := by ring
      omega
    · rw [if_neg h2, if_neg h2]
      have he : (p + 1) * (S / N) = p * (S / N) + S / N := by ring
      omega

/-- The block split offsets are monotone. -/
theorem blockOffN_mono (S N : Nat) : ∀ q p : Nat, p ≤ q →
    blockOffN S N p ≤ blockOffN S N q := by
  intro q
  induction q with
  | zero =>
    intro p hp
    have : p = 0 := by omega
    subst this
    exact le_rfl
  | succ q ih =>
    intro p hp
    rcases Nat.lt_or_ge p (q + 1) with h | h
    · have h2 := ih p (by omega)
      have h3 := blockOffN_step S N q
      have h4 : 0 ≤ S / N := Nat.zero_le _
      omega
    · have : p = q + 1 := by omega
      subst this
      exact le_rfl

/-- The block split offsets start at 0 and end at S. -/
theorem blockOffN_bounds (S N : Nat) (hN : 0 < N) :
    blockOffN S N 0 = 0 ∧ blockOffN S N N = S := by
  constructor
  · unfold blockOffN
    split_ifs <;> omega
  · unfold blockOffN
    have hmod : S % N < N := Nat.mod_lt _ hN
    rw [if_neg (by omega)]
    have hdm := Nat.div_add_mod S N
    have hr : N * (S / N) = S / N * N := by ring
    have hr2 : N * (S / N) = (S / N) * N := by ring
    omega

/-- Every index below S falls in exactly one block split cell. -/
theorem blockOffN_find (S N : Nat) (hN : 0 < N) (d : Nat) (hd : d < S) :
    ∃ p, p < N ∧ blockOffN S N p ≤ d ∧ d < blockOffN S N (p + 1) := by
  obtain ⟨h0, hSN⟩ := blockOffN_bounds S N hN
  have aux : ∀ n, n ≤ N → d < blockOffN S N n →
      ∃ p, p < n ∧ blockOffN S N p ≤ d ∧ d < blockOffN S N (p + 1) := by
    intro n
    induction n with
    | zero =>
      intro _ habs
      rw [h0] at habs
      omega
    | succ n ih =>
      intro hn hlt
      by_cases hdn : d < blockOffN S N n
      · obtain ⟨p, hp1, hp2, hp3⟩ := ih (by omega) hdn
        exact ⟨p, by omega, hp2, hp3⟩
      · exact ⟨n, by omega, by omega, hlt⟩
  exact aux N le_rfl (by omega)

/-- The first chunk handed to partition p by a configured BlockPartitioner
(any ghost size, N >= 2): its start is src.start + blockOffN, its non-ghost
core ends at the next offset, its ghost is nonnegative and it never reaches
past src.end. -/
theorem block_chunk {src : Range} {N : Nat} {cs0 g : Int} {st : BlockState}
    (hcfg : blockConfigure src N cs0 g = .ok st) (hN2 : 2 ≤ N)
    (hse : src.start ≤ src.end_) (p : Nat) (hpN : p < N) :
    (blockGetNextImpl st p).1.start
      = src.start + ((blockOffN src.sizeN N p : Nat) : Int) ∧
    (blockGetNextImpl st p).1.end_ - (blockGetNextImpl st p).1.overlap
      = src.start + ((blockOffN src.sizeN N (p + 1) : Nat) : Int) ∧
    0 ≤ (blockGetNextImpl st p).1.overlap ∧
    (blockGetNextImpl st p).1.end_ ≤ src.end_ := by
  obtain ⟨hN0, hg0, hcs0, hsrc, hend, hNP, hgh, hC, hrem, hcurr, hdone⟩ :=
    blockConfigure_ok hcfg
  set S : Nat := src.sizeN with hSdef
  have hSI : (S : Int) = src.end_ - src.start := by
    rw [hSdef]
    unfold Range.sizeN
    exact Int.toNat_of_nonneg (by omega)
  have hmodlt : S % N < N := Nat.mod_lt _ (by omega)
  have hremN : st.rem = ((S % N : Nat) : Int) := by
    rw [hrem]
    have hdm := Nat.div_add_mod S N
    have hr : N * (S / N) = S / N * N := by ring
    have hcast : ((S / N : Nat) : Int) * (N : Int) = ((S / N * N : Nat) : Int) := by
      push_cast
      ring
    omega
  have hpif : ((p : Int) < st.rem) ↔ (p < S % N) := by
    rw [hremN]
    omega
  have hstep : (blockGetNextImpl st p).1
      = computeRangeForChunkId
          (if (p : Int) < st.rem then { st.curr with start := st.src.start }
           else { st.curr with start := st.src.start + st.rem })
          st.src p
          (if (p : Int) < st.rem then st.chunkSize + 1 else st.chunkSize)
          st.ghostSize := by
    unfold blockGetNextImpl
    rw [if_neg (by simp [hdone]), if_neg (by omega)]
  have hsrcstart : st.src.start = src.start := by rw [hsrc]
  have hsrcend : st.src.end_ = src.end_ := by rw [hsrc]
  have hoffstep := blockOffN_step S N p
  have hoffmono := blockOffN_mono S N N (p + 1) (by omega)
  have hoffN := (blockOffN_bounds S N (by omega)).2
  by_cases hpr : (p : Int) < st.rem
  · have hprN : p < S % N := hpif.mp hpr
    rw [hstep, if_pos hpr, if_pos hpr]
    unfold computeRangeForChunkId
    simp only [hsrcstart, hsrcend, hgh, hC]
    have hpoff : p * (S / N + 1) = blockOffN S N p := by
      unfold blockOffN
      rw [if_pos hprN]
    have hoff1 : blockOffN S N p + (S / N + 1) = blockOffN S N (p + 1) := by
      rw [hoffstep, if_pos hprN]
    have hoffple : blockOffN S N (p + 1) ≤ S := by omega
    have hsval : src.start + (p : Int) * ((S / N + 1 : Nat) : Int)
        = src.start + ((blockOffN S N p : Nat) : Int) := by
      rw [← hpoff]
      push_cast
      ring
    have hkey : ((S / N + 1 : Nat) : Int)
        ≤ src.end_ - (src.start + ((blockOffN S N p : Nat) : Int)) := by
      omega
    rw [hsval]
    have hcoreval : src.start + ((blockOffN S N p : Nat) : Int)
          + ((S / N + 1 : Nat) : Int)
        = src.start + ((blockOffN S N (p + 1) : Nat) : Int) := by
      omega
    split_ifs with hb1 hb2
    · exact ⟨rfl, by dsimp only; omega, by dsimp only; omega, by dsimp only; omega⟩
    · exact ⟨rfl, by dsimp only; omega, by dsimp only; omega, by dsimp only; omega⟩
    · exact ⟨rfl, by dsimp only; omega, by dsimp only; omega, by dsimp only; omega⟩
  · have hprN : ¬ (p < S % N) := fun h => hpr (hpif.mpr h)
    rw [hstep, if_neg hpr, if_neg hpr]
    unfold computeRangeForChunkId
    simp only [hsrcstart, hsrcend, hgh, hC, hremN]
    have hpoff : S % N + p * (S / N) = blockOffN S N p := by
      unfold blockOffN
      rw [if_neg hprN]
    have hoff1 : blockOffN S N p + (S / N) = blockOffN S N (p + 1) := by
      rw [hoffstep, if_neg hprN]
      omega
    have hoffple : blockOffN S N (p + 1) ≤ S := by omega
    have hsval : src.start + ((S % N : Nat) : Int) + (p : Int) * ((S / N : Nat) : Int)
        = src.start + ((blockOffN S N p : Nat) : Int) := by
      rw [← hpoff]
      push_cast
      ring
    have hkey : ((S / N : Nat) : Int)
        ≤ src.end_ - (src.start + ((blockOffN S N p : Nat) : Int)) := by
      omega
    rw [hsval]
    have hcoreval : src.start + ((blockOffN S N p : Nat) : Int)
          + ((S / N : Nat) : Int)
        = src.start + ((blockOffN S N (p + 1) : Nat) : Int) := by
      omega
    split_ifs with hb1 hb2
    · exact ⟨rfl, by dsimp only; omega, by dsimp only; omega, by dsimp only; omega⟩
    · exact ⟨rfl, by dsimp only; omega, by dsimp only; omega, by dsimp only; omega⟩
    · exact ⟨rfl, by dsimp only; omega, by dsimp only; omega, by dsimp only; omega⟩

/-- Coverage of a block split: the per-partition first-call chunks tile
[src.start, src.end) and their non-ghost cores are pairwise disjoint. -/
theorem block_coverage
    {src : Range} {N : Nat} {cs g : Int} {st : BlockState}
    (hcfg : blockConfigure src N cs g = .ok st)
    (hse : src.start ≤ src.end_) :
    (∀ x : Int, (src.start ≤ x ∧ x < src.end_) ↔
      ∃ p, p < N ∧ inRange (blockGetNextImpl st p).1 x) ∧
    (∀ p q, p < N → q < N → p ≠ q →
      ∀ x, inRange (coreOf (blockGetNextImpl st p).1) x →
        ¬ inRange (coreOf (blockGetNextImpl st q).1) x) := by
  obtain ⟨hN0, hg0, hcs0, hsrc, hend, hNP, hgh, hC, hrem, hcurr, hdone⟩ :=
    blockConfigure_ok hcfg
  have hSI : ((src.sizeN : Nat) : Int) = src.end_ - src.start := by
    unfold Range.sizeN
    exact Int.toNat_of_nonneg (by omega)
  by_cases hN1 : N = 1
  · subst hN1
    have hres : ∀ p : Nat, (blockGetNextImpl st p).1 = st.src := by
      intro p
      unfold blockGetNextImpl
      rw [if_neg (by simp [hdone]), if_pos (by omega)]
    have hs1 : st.src.start = src.start := by rw [hsrc]
    have hs2 : st.src.end_ = src.end_ := by rw [hsrc]
    have hs3 : st.src.overlap = 0 := by rw [hsrc]
    constructor
    · intro x
      constructor
      · rintro ⟨hx1, hx2⟩
        refine ⟨0, by omega, ?_⟩
        rw [hres]
        unfold inRange
        omega
      · rintro ⟨p, hp, hmem⟩
        rw [hres] at hmem
        unfold inRange at hmem
        omega
    · intro p q hp hq hpq
      omega
  · have hN2 : 2 ≤ N := by omega
    have hchunk := fun (p : Nat) (hp : p < N) => block_chunk hcfg hN2 hse p hp
    constructor
    · intro x
      constructor
      · rintro ⟨hx1, hx2⟩
        have hdI : ((x - src.start).toNat : Int) = x - src.start :=
          Int.toNat_of_nonneg (by omega)
        have hdS : (x - src.start).toNat < src.sizeN := by omega
        obtain ⟨p, hp, hp2, hp3⟩ :=
          blockOffN_find src.sizeN N (by omega) _ hdS
        obtain ⟨hc1, hc2, hc3, hc4⟩ := hchunk p hp
        refine ⟨p, hp, ?_⟩
        unfold inRange
        have hp2I : ((blockOffN src.sizeN N p : Nat) : Int)
            ≤ ((x - src.start).toNat : Int) := by exact_mod_cast hp2
        have hp3I : ((x - src.start).toNat : Int)
            < ((blockOffN src.sizeN N (p + 1) : Nat) : Int) := by exact_mod_cast hp3
        omega
      · rintro ⟨p, hp, hmem⟩
        obtain ⟨hc1, hc2, hc3, hc4⟩ := hchunk p hp
        unfold inRange at hmem
        omega
    · intro p q hp hq hpq x hm1 hm2
      obtain ⟨hc1, hc2, hc3, hc4⟩ := hchunk p hp
      obtain ⟨hd1, hd2, hd3, hd4⟩ := hchunk q hq
      unfold inRange coreOf at hm1 hm2
      dsimp only at hm1 hm2
      rcases Nat.lt_or_ge p q with hlt | hge
      · have hmono := blockOffN_mono src.sizeN N q (p + 1) (by omega)
        have hmonoI : ((blockOffN src.sizeN N (p + 1) : Nat) : Int)
            ≤ ((blockOffN src.sizeN N q : Nat) : Int) := by exact_mod_cast hmono
        omega
      · have hqp : q < p := by omega
        have hmono := blockOffN_mono src.sizeN N p (q + 1) (by omega)
        have hmonoI : ((blockOffN src.sizeN N (q + 1) : Nat) : Int)
            ≤ ((blockOffN src.sizeN N p : Nat) : Int) := by exact_mod_cast hmono
        omega

/-- **C1**: for each partitioning strategy (Block, Cyclic, DemandDriven) and every
valid configuration of a nonempty-or-empty source, the union of all non-sentinel
ranges returned by getNext across a full traversal of every partition id equals
exactly the half-open interval [src.start, src.end): every index of the source
lies in some returned chunk (sentinel ranges are empty, so they contribute
nothing), and the non-ghost cores of any two distinct returned chunks are
disjoint, i.e. chunks overlap only within the declared ghost region.  Block is
traversed by the first call of each partition id, Cyclic by every call count k
of each partition id, DemandDriven by any interleaving pseq of callers. -/
theorem partition_coverage_invariant :
    (∀ (src : Range) (N : Nat) (cs g : Int) (st : BlockState),
      blockConfigure src N cs g = .ok st → src.start ≤ src.end_ →
      ((∀ x : Int, (src.start ≤ x ∧ x < src.end_) ↔
          ∃ p, p < N ∧ inRange (blockGetNextImpl st p).1 x) ∧
        (∀ p q, p < N → q < N → p ≠ q →
          ∀ x, inRange (coreOf (blockGetNextImpl st p).1) x →
            ¬ inRange (coreOf (blockGetNextImpl st q).1) x))) ∧
    (∀ (src : Range) (N : Nat) (cs g : Int) (st : CycState),
      cycConfigure src N cs g = .ok st → src.start ≤ src.end_ → 1 ≤ cs →
      ((∀ x : Int, (src.start ≤ x ∧ x < src.end_) ↔
          ∃ p, p < N ∧ ∃ k, inRange (cycResultAt st p k) x) ∧
        (∀ p k p2 k2, p < N → p2 < N → (p, k) ≠ (p2, k2) →
          ∀ x, inRange (coreOf (cycResultAt st p k)) x →
            ¬ inRange (coreOf (cycResultAt st p2 k2)) x))) ∧
    (∀ (src : Range) (N : Nat) (cs g : Int) (st : DDState) (pseq : Nat → Nat),
      ddConfigure src N cs g = .ok st → src.start ≤ src.end_ → 1 ≤ cs →
      ((∀ x : Int, (src.start ≤ x ∧ x < src.end_) ↔
          ∃ t, inRange (ddResultAt st pseq t) x) ∧
        (∀ t t2, t ≠ t2 →
          ∀ x, inRange (coreOf (ddResultAt st pseq t)) x →
            ¬ inRange (coreOf (ddResultAt st pseq t2)) x))) :=
  ⟨fun _ _ _ _ _ hcfg hse => block_coverage hcfg hse,
   fun _ _ _ _ _ hcfg hse hcs => cyc_coverage hcfg hse hcs,
   fun _ _ _ _ _ pseq hcfg hse hcs => dd_coverage hcfg hse hcs pseq⟩

/-- Witness for C1 at the concrete source [0, 100): position 55 is covered by
each strategy's traversal (block with 3 partitions, cyclic with 3 partitions
and chunk size 10, demand-driven with 2 partitions, chunk size 10 and a caller
sequence that always uses partition 0). -/
theorem partition_coverage_invariant_witness :
    (∃ p, p < 3 ∧ inRange (blockGetNextImpl stBW p).1 55) ∧
    (∃ p, p < 3 ∧ ∃ k, inRange (cycResultAt stCW p k) 55) ∧
    (∃ t, inRange (ddResultAt stDW (fun _ => 0) t) 55) := by
  refine ⟨?_, ?_, ?_⟩
  · exact ((partition_coverage_invariant.1 srcW 3 0 0 stBW rfl (by decide)).1 55).mp
      (by decide)
  · exact ((partition_coverage_invariant.2.1 srcW 3 10 0 stCW rfl (by decide)
      (by decide)).1 55).mp (by decide)
  · exact ((partition_coverage_invariant.2.2 srcW 2 10 0 stDW (fun _ => 0) rfl
      (by decide) (by decide)).1 55).mp (by decide)

/-! ## Claim C3: DemandDrivenPartitioner getNext (slot index corrected) -/

/-- C3 counterexample: over [0,100) with chunkSize 10 and 2 partitions the
chunks (10) outnumber the partitions (2), so by the claim the first returned
chunk should be stored in the slot indexed by its chunk id (0); the code
stores it in the slot indexed by the calling partition id (1) instead, and
slot 0 still holds its reset value. -/
theorem dd_slot_index_counterexample :
    (ddConfigure srcW 2 10 0).map (fun st =>
      (st.nChunks, st.nPartitions,
       (ddGetNextImpl st 1).1.start, (ddGetNextImpl st 1).1.end_,
       decide ((ddGetNextImpl st 1).2.curr 0 = (ddGetNextImpl st 1).1),
       decide ((ddGetNextImpl st 1).2.curr 1 = (ddGetNextImpl st 1).1)))
    = .ok (10, 2, 0, 10, false, true) := by
  rfl

/-- C3 (amended): every getNext(partId) call returns the sentinel immediately
when the exhausted flag is set; otherwise it reserves the next offset s
(advancing the shared cursor by chunkSize and the chunk counter by 1); if s
is at or past src.end it sets the exhausted flag and returns the sentinel;
otherwise it returns [s, min(s + chunkSize + ghost, src.end)), stored in the
slot indexed by chunk id when PARTITIONS OUTNUMBER CHUNKS (nChunks <
nPartitions) and by partId otherwise. -/
theorem dd_getNext_behavior_amended (st : DDState) (p : Nat) :
    (st.done = true → ddGetNextImpl st p = (st.end_, st)) ∧
    (st.done = false →
      (ddGetNextImpl st p).2.chunkOffset = st.chunkOffset + (st.chunkSize : Int) ∧
      (ddGetNextImpl st p).2.chunkId = st.chunkId + 1 ∧
      (st.src.end_ ≤ st.chunkOffset →
        (ddGetNextImpl st p).1 = st.end_ ∧ (ddGetNextImpl st p).2.done = true) ∧
      (st.chunkOffset < st.src.end_ →
        (ddGetNextImpl st p).2.done = st.done ∧
        (ddGetNextImpl st p).1.start = st.chunkOffset ∧
        (ddGetNextImpl st p).1.end_
          = min (st.chunkOffset + (st.chunkSize : Int) + st.src.overlap) st.src.end_ ∧
        (ddGetNextImpl st p).2.curr
            (if st.nChunks < st.nPartitions then st.chunkId else p)
          = (ddGetNextImpl st p).1)) := by
  constructor
  · intro h
    unfold ddGetNextImpl
    rw [if_pos h]
  · intro h
    unfold ddGetNextImpl
    rw [if_neg (by simp [h])]
    simp only []
    by_cases hs : st.chunkOffset ≥ st.src.end_
    · rw [if_pos hs]
      exact ⟨rfl, rfl, fun _ => ⟨rfl, rfl⟩, fun hlt => absurd hlt (by omega)⟩
    · rw [if_neg hs]
      push_neg at hs
      refine ⟨rfl, rfl, fun hge => absurd hge (by omega), fun hlt => ?_⟩
      refine ⟨h.symm ▸ rfl, rfl, ?_, ?_⟩
      · by_cases hgt : st.src.end_ - st.chunkOffset > (st.chunkSize : Int) + st.src.overlap
        · rw [if_pos hgt]
          dsimp only
          rw [min_eq_left (by omega)]
        · rw [if_neg hgt]
          dsimp only
          rw [min_eq_right (by omega)]
      · dsimp only
        rw [Function.update_same]

/-- Witness for C3 (amended) on the configured [0,100)/10/2 partitioner at
partition 0. -/
theorem dd_getNext_behavior_amended_witness :
    (ddGetNextImpl stDW 0).2.chunkOffset = stDW.chunkOffset + (stDW.chunkSize : Int) ∧
    (ddGetNextImpl stDW 0).1.start = stDW.chunkOffset ∧
    (ddGetNextImpl stDW 0).2.curr
        (if stDW.nChunks < stDW.nPartitions then stDW.chunkId else 0)
      = (ddGetNextImpl stDW 0).1 := by
  have h := (dd_getNext_behavior_amended stDW 0).2 (by rfl)
  exact ⟨h.1, (h.2.2.2 (by decide)).2.1, (h.2.2.2 (by decide)).2.2.2⟩

/-! ## Claim C4: CyclicPartitioner getNext behaviour -/

/-- C4: partitionId >= nChunks always returns the sentinel; the first call on
a BEFORE slot returns its precomputed chunk and moves to DURING; a DURING
call advances the slot range by the stride, going terminal with the sentinel
when the advanced start would reach or pass src.end, and clamping end to
src.end (with the ghost set to what remains past the chunkSize payload,
which is the final chunk) when only the advanced end would reach or pass
src.end.  Over [0,100) with chunkSize 10 and 3 partitions, partition 0 gets
[0,10), [30,40), [60,70), [90,100) and then the sentinel. -/
theorem cyclic_getNext_behavior :
    (∀ (st : CycState) (p : Nat),
      (st.nChunks ≤ p → cycGetNextImpl st p = (st.end_, st)) ∧
      (p < st.nChunks → st.state p = 0 →
        (cycGetNextImpl st p).1 = st.curr p ∧ (cycGetNextImpl st p).2.state p = 1) ∧
      (p < st.nChunks → st.state p = 2 → cycGetNextImpl st p = (st.end_, st)) ∧
      (p < st.nChunks → st.state p = 1 →
        ((st.src.end_ ≤ (st.curr p).start + (st.stride : Int) →
            (cycGetNextImpl st p).1 = st.end_ ∧ (cycGetNextImpl st p).2.state p = 2) ∧
         ((st.curr p).start + (st.stride : Int) < st.src.end_ →
            (cycGetNextImpl st p).1.start = (st.curr p).start + (st.stride : Int) ∧
            (((st.curr p).end_ + (st.stride : Int) < st.src.end_ →
                (cycGetNextImpl st p).1.end_ = (st.curr p).end_ + (st.stride : Int) ∧
                (cycGetNextImpl st p).2.state p = 1) ∧
             (st.src.end_ ≤ (st.curr p).end_ + (st.stride : Int) →
                (cycGetNextImpl st p).1.end_ = st.src.end_ ∧
                (cycGetNextImpl st p).2.state p = 2 ∧
                (cycGetNextImpl st p).1.overlap
                  = max 0 (min st.ghostSize (st.src.end_
                      - ((cycGetNextImpl st p).1.start + (st.chunkSize : Int)))) ∧
                (0 ≤ st.src.end_ - ((st.curr p).start + (st.stride : Int) + (st.chunkSize : Int)) →
                 st.src.end_ - ((st.curr p).start + (st.stride : Int) + (st.chunkSize : Int))
                   ≤ st.ghostSize →
                 (cycGetNextImpl st p).1.overlap
                   = st.src.end_ - ((cycGetNextImpl st p).1.start + (st.chunkSize : Int))))))))) ∧
    (cycConfigure srcW 3 10 0).map (fun st =>
      let r0 := cycGetNextImpl st 0
      let r1 := cycGetNextImpl r0.2 0
      let r2 := cycGetNextImpl r1.2 0
      let r3 := cycGetNextImpl r2.2 0
      let r4 := cycGetNextImpl r3.2 0
      [(r0.1.start, r0.1.end_), (r1.1.start, r1.1.end_), (r2.1.start, r2.1.end_),
       (r3.1.start, r3.1.end_), (r4.1.start, r4.1.end_)])
    = .ok [(0, 10), (30, 40), (60, 70), (90, 100), (100, 100)] := by
  constructor
  · intro st p
    refine ⟨?_, ?_, ?_, ?_⟩
    · intro hge
      unfold cycGetNextImpl
      rw [if_pos hge]
    · intro hlt h0
      unfold cycGetNextImpl
      rw [if_neg (by omega), if_neg (by omega), if_pos h0]
      exact ⟨rfl, by dsimp only; rw [Function.update_same]⟩
    · intro hlt h2
      unfold cycGetNextImpl
      rw [if_neg (by omega), if_pos h2]
    · intro hlt h1
      unfold cycGetNextImpl
      rw [if_neg (by omega), if_neg (by omega), if_neg (by omega)]
      constructor
      · intro hfail
        rw [if_neg (by omega)]
        exact ⟨rfl, by dsimp only; rw [Function.update_same]⟩
      · intro hok
        rw [if_pos (by omega)]
        simp only []
        by_cases hend : st.src.end_ - (st.curr p).end_ > (st.stride : Int)
        · rw [if_pos hend]
          refine ⟨rfl, fun hlt2 => ⟨rfl, ?_⟩, fun hge2 => absurd hge2 (by omega)⟩
          dsimp only
          exact h1
        · rw [if_neg hend]
          refine ⟨rfl, fun hlt2 => absurd hlt2 (by omega), fun hge2 => ⟨rfl, ?_, rfl, ?_⟩⟩
          · dsimp only
            rw [Function.update_same]
          · intro h0 hle
            dsimp only
            rw [min_eq_right hle, max_eq_right h0]
  · rfl

/-- Witness for C4 on the configured [0,100)/10/3 partitioner: an
out-of-range partition id gets the sentinel, the first call returns the
precomputed slot value, and a DURING call advances start by the stride. -/
theorem cyclic_getNext_behavior_witness :
    cycGetNextImpl stCW 15 = (stCW.end_, stCW) ∧
    (cycGetNextImpl stCW 0).1 = stCW.curr 0 ∧
    (cycGetNextImpl (cycStateAfter stCW 0 1) 0).1.start
      = ((cycStateAfter stCW 0 1).curr 0).start
        + ((cycStateAfter stCW 0 1).stride : Int) := by
  refine ⟨(cyclic_getNext_behavior.1 stCW 15).1 (by decide), 
    ((cyclic_getNext_behavior.1 stCW 0).2.1 (by decide) (by rfl)).1, ?_⟩
  exact (((cyclic_getNext_behavior.1 (cycStateAfter stCW 0 1) 0).2.2.2
    (by decide) (by rfl)).2 (by decide)).1

/-! ## Claim C5: BlockPartitioner first-call split -/

/-- C5: with ghostSize 0 and N >= 2, the first getNext(p) after configure
returns, for p < R (R = S - (S div N) * N), the interval of C + 1 elements
starting at src.start + p * (C + 1), and for R <= p < N the interval of C
elements starting at src.start + R + p * C, where C = S div N; in particular
S = 100, N = 3 gives chunk sizes {34, 33, 33} with the extra element going to
partition 0. -/
theorem block_first_getNext_split :
    (∀ (src : Range) (N : Nat) (cs0 : Int) (st : BlockState),
      blockConfigure src N cs0 0 = .ok st → 2 ≤ N → src.start ≤ src.end_ →
      st.chunkSize = src.sizeN / N ∧
      st.rem = (src.sizeN : Int) - (st.chunkSize : Int) * (N : Int) ∧
      (∀ p : Nat, p < N →
        ((p : Int) < st.rem →
          (blockGetNextImpl st p).1.start
              = src.start + (p : Int) * ((st.chunkSize : Int) + 1) ∧
          (blockGetNextImpl st p).1.end_
              = (blockGetNextImpl st p).1.start + ((st.chunkSize : Int) + 1)) ∧
        (st.rem ≤ (p : Int) →
          (blockGetNextImpl st p).1.start
              = src.start + st.rem + (p : Int) * (st.chunkSize : Int) ∧
          (blockGetNextImpl st p).1.end_
              = (blockGetNextImpl st p).1.start + (st.chunkSize : Int)))) ∧
    (blockConfigure srcW 3 0 0).map (fun st =>
        ((blockGetNextImpl st 0).1.end_ - (blockGetNextImpl st 0).1.start,
         (blockGetNextImpl st 1).1.end_ - (blockGetNextImpl st 1).1.start,
         (blockGetNextImpl st 2).1.end_ - (blockGetNextImpl st 2).1.start,
         (blockGetNextImpl st 0).1.start))
      = .ok (34, 33, 33, 0) := by
  constructor
  · intro src N cs0 st hcfg hN2 hse
    obtain ⟨hN0, hg0, hcs0, hsrc, hend, hNP, hgh, hC, hrem, hcurr, hdone⟩ :=
      blockConfigure_ok hcfg
    have hremC : st.rem = (src.sizeN : Int) - (st.chunkSize : Int) * (N : Int) := by
      rw [hC]
      exact hrem
    refine ⟨hC, hremC, ?_⟩
    intro p hpN
    have hSint : (src.sizeN : Int) = src.end_ - src.start := by
      unfold Range.sizeN
      exact Int.toNat_of_nonneg (by omega)
    have hC0 : (0 : Int) ≤ (st.chunkSize : Int) := by positivity
    have hpNI : (p : Int) < (N : Int) := by exact_mod_cast hpN
    have hstep : (blockGetNextImpl st p).1
        = computeRangeForChunkId
            (if (p : Int) < st.rem then { st.curr with start := st.src.start }
             else { st.curr with start := st.src.start + st.rem })
            st.src p
            (if (p : Int) < st.rem then st.chunkSize + 1 else st.chunkSize)
            st.ghostSize := by
      unfold blockGetNextImpl
      rw [if_neg (by simp [hdone]), if_neg (by omega)]
    have hsrcstart : st.src.start = src.start := by rw [hsrc]
    have hsrcend : st.src.end_ = src.end_ := by rw [hsrc]
    constructor
    · intro hpR
      rw [hstep, if_pos hpR, if_pos hpR]
      unfold computeRangeForChunkId
      simp only [hsrcstart, hsrcend, hgh]
      have hcast : ((st.chunkSize + 1 : Nat) : Int) = (st.chunkSize : Int) + 1 := by
        push_cast
        ring
      rw [hcast]
      have hkey : (st.chunkSize : Int) + 1 ≤
          src.end_ - (src.start + (p : Int) * ((st.chunkSize : Int) + 1)) := by
        rw [hremC] at hpR
        have hexpand : (src.sizeN : Int) - ((p : Int) + 1) * ((st.chunkSize : Int) + 1)
            = (st.chunkSize : Int) * ((N : Int) - (p : Int) - 1)
              + (((src.sizeN : Int) - (st.chunkSize : Int) * (N : Int)) - (p : Int) - 1) := by
          ring
        have hprod : (0 : Int) ≤ (st.chunkSize : Int) * ((N : Int) - (p : Int) - 1) :=
          mul_nonneg hC0 (by omega)
        have hmul : ((p : Int) + 1) * ((st.chunkSize : Int) + 1)
            = (p : Int) * ((st.chunkSize : Int) + 1) + ((st.chunkSize : Int) + 1) := by
          ring
        omega
      split_ifs with hb1 hb2
      · exact ⟨rfl, by dsimp only; omega⟩
      · exact ⟨rfl, by dsimp only; omega⟩
      · exact ⟨rfl, by dsimp only; omega⟩
    · intro hpR
      rw [hstep, if_neg (by omega), if_neg (by omega)]
      unfold computeRangeForChunkId
      simp only [hsrcstart, hsrcend, hgh]
      have hkey : (st.chunkSize : Int) ≤
          src.end_ - (src.start + st.rem + (p : Int) * (st.chunkSize : Int)) := by
        rw [hremC]
        have hexpand : (src.sizeN : Int)
              - ((src.sizeN : Int) - (st.chunkSize : Int) * (N : Int))
              - ((p : Int) + 1) * (st.chunkSize : Int)
            = (st.chunkSize : Int) * ((N : Int) - (p : Int) - 1) := by
          ring
        have hprod : (0 : Int) ≤ (st.chunkSize : Int) * ((N : Int) - (p : Int) - 1) :=
          mul_nonneg hC0 (by omega)
        have hmul : ((p : Int) + 1) * (st.chunkSize : Int)
            = (p : Int) * (st.chunkSize : Int) + (st.chunkSize : Int) := by
          ring
        omega
      split_ifs with hb1 hb2
      · exact ⟨rfl, by dsimp only; omega⟩
      · exact ⟨rfl, by dsimp only; omega⟩
      · exact ⟨rfl, by dsimp only; omega⟩
  · rfl

/-- Witness for C5: the general split applied to [0,100) with 3 partitions at
partition 0 (which gets the one extra element: 34 elements from 0). -/
theorem block_first_getNext_split_witness :
    (blockGetNextImpl stBW 0).1.start = (0 : Int) + (0 : Int) * ((stBW.chunkSize : Int) + 1) ∧
    (blockGetNextImpl stBW 0).1.end_
      = (blockGetNextImpl stBW 0).1.start + ((stBW.chunkSize : Int) + 1) := by
  have h := ((block_first_getNext_split.1 srcW 3 0 stBW rfl (by decide)
    (by decide)).2.2 0 (by decide)).1 (by decide)
  simpa using h

/-- Witness for C8 at start = -500, pageSize = 128, lowest = int64Lowest:
the successful call yields the greatest 128-multiple at or below -500. -/
theorem align_to_page_floor_multiple_witness :
    ((128 : Int) ∣ (((Range.mk3 (-500) 0 0).alignToPage 128 int64Lowest).getD (Range.mk3 0 0 0)).block_start ∧
     (((Range.mk3 (-500) 0 0).alignToPage 128 int64Lowest).getD (Range.mk3 0 0 0)).block_start ≤ (-500 : Int) ∧
     (-500 : Int) < (((Range.mk3 (-500) 0 0).alignToPage 128 int64Lowest).getD (Range.mk3 0 0 0)).block_start + 128) := by
  have h := ((align_to_page_floor_multiple.1 (Range.mk3 (-500) 0 0) 128 int64Lowest
    (by decide)).1 ((((Range.mk3 (-500) 0 0).alignToPage 128 int64Lowest).getD (Range.mk3 0 0 0))) (by rfl)).1
  exact_mod_cast h

end Bliss
